import Mathlib

/-!
Verification development for the CFR+ postflop solver core (gto-cli).

This file shallowly embeds the single-street (river) fragment of the solver:
the fast hand evaluator (`src/lookup_eval.rs`), the CFR+ info-set store
(`src/cfr.rs`), the postflop action-tree builder (`src/postflop_tree.rs`),
and the river CFR+ traversal / terminal values / best response
(`src/river_solver.rs`).

Modelling conventions:
* `f64` chip amounts, reach probabilities and strategy weights are modelled
  as exact rationals (`ℚ`); decimal literals of the source (`0.01`, `0.2`,
  `1e-10`, `0.33`) become the corresponding rationals.
* `u32` hand scores and `u8` card indices are modelled as `Nat`; the packed
  score uses at most 24 bits, so no `u32` overflow is possible and plain
  `Nat` arithmetic is faithful.
* Rust's `HashMap<InfoSetKey, InfoSetData>` is modelled as a function
  `InfoSetKey → Option InfoSetData`; in-place mutation becomes functional
  update.
* Rust array indexing into vectors whose length is fixed by construction is
  modelled with `List.getD` (default `0`), faithful on all well-formed
  inputs.
* The `Chance` tree-node arm of the source is used only by the multi-street
  builders (`build_turn_tree`), which no claim touches; every embedded
  function is exercised only on the river fragment, where the source
  guarantees (and `cfr_traverse` asserts via `unreachable!`) that no chance
  node occurs.  The embedding therefore omits the `Chance` arm.
* The recursive tree builder is embedded with an explicit fuel parameter
  (structural recursion); `buildTree` supplies fuel exceeding the maximal
  recursion depth (the betting sequence check → check-back / bet → raise^k
  is bounded by `maxRaises`), and all invariants proved below hold for
  every fuel value, including exhaustion.
-/

namespace GtoCli

/-! ## Card coder (`src/card_encoding.rs`)

A card is an integer in `0..51`; `rank = index / 4` (0 = Two .. 12 = Ace),
`suit = index % 4`. -/

/-- Rank index (0..12) of a card index, as in `c >> 2`. -/
def cardRank (c : Nat) : Nat := c / 4

/-- Suit index (0..3) of a card index, as in `c & 0x3`. -/
def cardSuit (c : Nat) : Nat := c % 4

/-! ## Hand evaluator (`src/lookup_eval.rs`) -/

/-- Entry of the precomputed `STRAIGHT_TABLE` for a 13-bit rank mask:
the highest straight's high-card rank value (5..14), or 0 when no straight
exists.  The source fills the table by scanning the five-consecutive-bit
windows with high bit 4..12 in ascending order, keeping the last match,
then handles the wheel `A-2-3-4-5` (bits 12,0,1,2,3) as a 5-high straight
only when no regular straight was found. -/
def straightOf (mask : Nat) : Nat :=
  let best := (List.range' 4 9).foldl
    (fun best highBit =>
      let pat := (0x1F : Nat) <<< (highBit - 4)
      if mask &&& pat = pat then highBit + 2 else best) 0
  let wheel : Nat := (1 <<< 12) ||| 0xF
  if mask &&& wheel = wheel ∧ best = 0 then 5 else best

/-- Pack a hand category plus up to five rank values into a single score,
mirroring `hand_score`: category in bits 23-20, rank values in the
successive 4-bit fields at shifts 16, 12, 8, 4, 0. -/
def handScore (category : Nat) (v : List Nat) : Nat :=
  (v.zip [16, 12, 8, 4, 0]).foldl
    (fun s rs => s ||| (rs.1 <<< rs.2)) (category <<< 20)

/-- The top `n` set bits of a 13-bit mask as rank values, high to low,
padded with zeros to five entries like the `[u8; 5]` of the source. -/
def topNFromMask (mask : Nat) (n : Nat) : List Nat :=
  let bits := ((List.range 13).reverse.filter
    (fun bit => mask &&& (1 <<< bit) ≠ 0)).map (· + 2)
  (bits.take n ++ List.replicate 5 0).take 5

/-- Per-rank multiplicity histogram of a hand (index 0 = Two .. 12 = Ace),
as built by the counting loop of `evaluate_fast`. -/
def rankCounts (cards : List Nat) : Nat → Nat :=
  fun r => (cards.filter (fun c => cardRank c = r)).length

/-- 13-bit rank mask of the cards of suit `s`, as built by the counting
loop of `evaluate_fast`. -/
def suitMask (cards : List Nat) (s : Nat) : Nat :=
  cards.foldl (fun m c => if cardSuit c = s then m ||| (1 <<< cardRank c) else m) 0

/-- Number of cards of suit `s` in the hand. -/
def suitCount (cards : List Nat) (s : Nat) : Nat :=
  (cards.filter (fun c => cardSuit c = s)).length

/-- The ranks (as rank values 2..14, descending) whose multiplicity in the
histogram is exactly `m`; the source collects these in its
quad/trip/pair/single arrays by scanning ranks from Ace down. -/
def ranksWithCount (rc : Nat → Nat) (m : Nat) : List Nat :=
  ((List.range 13).reverse.filter (fun idx => rc idx = m)).map (· + 2)

/-- `evaluate_non_flush`: best non-flush score from the rank histogram.
Absent array entries of the source are the zero-initialised defaults of its
fixed-size arrays, hence `List.getD _ _ 0` here. -/
def evaluateNonFlush (rc : Nat → Nat) : Nat :=
  let quad := ranksWithCount rc 4
  let trip := ranksWithCount rc 3
  let pair := ranksWithCount rc 2
  let sing := ranksWithCount rc 1
  if quad ≠ [] then
    let kick := if trip ≠ [] then trip.headD 0
                else if pair ≠ [] then pair.headD 0
                else sing.headD 0
    handScore 7 [quad.headD 0, kick]
  else if trip ≠ [] ∧ (pair ≠ [] ∨ 2 ≤ trip.length) then
    let pr := if 2 ≤ trip.length then trip.getD 1 0 else pair.headD 0
    handScore 6 [trip.headD 0, pr]
  else
    let rankMask := (List.range 13).foldl
      (fun m i => if 0 < rc i then m ||| (1 <<< i) else m) 0
    let sh := straightOf rankMask
    if sh ≠ 0 then
      handScore 4 [sh]
    else if trip ≠ [] then
      handScore 3 [trip.headD 0, sing.getD 0 0, sing.getD 1 0]
    else if 2 ≤ pair.length then
      let kick := if 3 ≤ pair.length ∧ sing.getD 0 0 < pair.getD 2 0
                  then pair.getD 2 0 else sing.getD 0 0
      handScore 2 [pair.getD 0 0, pair.getD 1 0, kick]
    else if pair.length = 1 then
      handScore 1 [pair.getD 0 0, sing.getD 0 0, sing.getD 1 0, sing.getD 2 0]
    else
      handScore 0 [sing.getD 0 0, sing.getD 1 0, sing.getD 2 0,
                   sing.getD 3 0, sing.getD 4 0]

/-- `evaluate_fast`: score of a 5-7 card hand (card indices 0..51).
If some suit holds at least five cards the flush path applies (the first
such suit, as `Iterator::position` finds it); otherwise the non-flush path
over the rank histogram. -/
def evaluateFast (cards : List Nat) : Nat :=
  match [0, 1, 2, 3].find? (fun s => 5 ≤ suitCount cards s) with
  | some suit =>
    let fmask := suitMask cards suit
    let sfHigh := straightOf fmask
    if sfHigh ≠ 0 then
      if sfHigh = 14 then handScore 9 [14] else handScore 8 [sfHigh]
    else
      handScore 5 (topNFromMask fmask 5)
  | none => evaluateNonFlush (rankCounts cards)

/-! ## Info-set store (`src/cfr.rs`) -/

/-- One information set's accumulated data (`InfoSetData`). -/
structure InfoSetData where
  numActions : Nat
  cumulativeRegret : List ℚ
  cumulativeStrategy : List ℚ
deriving DecidableEq

/-- `InfoSetData::new`: zeroed vectors of length `numActions`. -/
def InfoSetData.new (n : Nat) : InfoSetData :=
  ⟨n, List.replicate n 0, List.replicate n 0⟩

/-- `InfoSetData::current_strategy`: regret matching, proportional to
positive regrets; uniform when the positive-regret sum is not positive. -/
def InfoSetData.currentStrategy (d : InfoSetData) : List ℚ :=
  let positiveSum : ℚ := (d.cumulativeRegret.map (fun r => max r 0)).sum
  if 0 < positiveSum then
    d.cumulativeRegret.map (fun r => max r 0 / positiveSum)
  else
    List.replicate d.numActions (1 / (d.numActions : ℚ))

/-- `InfoSetData::average_strategy`: cumulative strategy normalised by its
sum; uniform when that sum is not positive. -/
def InfoSetData.averageStrategy (d : InfoSetData) : List ℚ :=
  let total : ℚ := d.cumulativeStrategy.sum
  if 0 < total then
    d.cumulativeStrategy.map (fun s => s / total)
  else
    List.replicate d.numActions (1 / (d.numActions : ℚ))

/-- `InfoSetData::update`: CFR+ regret update (floored at zero) plus
reach-weighted strategy accumulation, the current strategy being read
before the regrets change. -/
def InfoSetData.update (d : InfoSetData) (actionUtilities : List ℚ)
    (nodeUtility reachProb : ℚ) : InfoSetData :=
  let strategy := d.currentStrategy
  { d with
    cumulativeRegret := (List.range d.numActions).map (fun a =>
      max (d.cumulativeRegret.getD a 0 + (actionUtilities.getD a 0 - nodeUtility)) 0),
    cumulativeStrategy := (List.range d.numActions).map (fun a =>
      d.cumulativeStrategy.getD a 0 + reachProb * strategy.getD a 0) }

/-- Key of an information set (`InfoSetKey`). -/
structure InfoSetKey where
  handBucket : Nat
  nodeId : Nat
deriving DecidableEq

/-- The trainer's keyed storage (`CfrTrainer.info_sets`), a `HashMap`
modelled as a partial map. -/
def Trainer : Type := InfoSetKey → Option InfoSetData

/-- `CfrTrainer::new`: empty storage. -/
def Trainer.new : Trainer := fun _ => none

/-- Functional update standing in for `HashMap::insert` /
`entry().or_insert_with` mutation. -/
def Trainer.insert (t : Trainer) (k : InfoSetKey) (d : InfoSetData) : Trainer :=
  fun q => if q = k then some d else t q

/-- `CfrTrainer::get_strategy`: current strategy of the stored entry, or
the uniform strategy when the key is absent. -/
def Trainer.getStrategy (t : Trainer) (k : InfoSetKey) (numActions : Nat) : List ℚ :=
  match t k with
  | some d => d.currentStrategy
  | none => List.replicate numActions (1 / (numActions : ℚ))

/-- `CfrTrainer::get_average_strategy`: average strategy of the stored
entry, or uniform when the key is absent. -/
def Trainer.getAverageStrategy (t : Trainer) (k : InfoSetKey) (numActions : Nat) : List ℚ :=
  match t k with
  | some d => d.averageStrategy
  | none => List.replicate numActions (1 / (numActions : ℚ))

/-! ## Players, actions and tree nodes (`src/postflop_tree.rs`) -/

/-- Acting player (`Player`): out of position or in position. -/
inductive Player where
  | OOP
  | IP
deriving DecidableEq

/-- `Player::opponent`. -/
def Player.opponent : Player → Player
  | .OOP => .IP
  | .IP => .OOP

/-- Read a player's slot of a two-entry chip array (`xs[player.index()]`,
with `index` mapping OOP to 0 and IP to 1). -/
def pget (s : ℚ × ℚ) (p : Player) : ℚ :=
  match p with
  | .OOP => s.1
  | .IP => s.2

/-- Write a player's slot of a two-entry chip array. -/
def pset (s : ℚ × ℚ) (p : Player) (v : ℚ) : ℚ × ℚ :=
  match p with
  | .OOP => (v, s.2)
  | .IP => (s.1, v)

/-- An action at an action node (`Action`). -/
inductive Action where
  | check
  | bet (amount : ℚ)
  | call (amount : ℚ)
  | raise (amount : ℚ)
  | fold
deriving DecidableEq

/-- How a terminal node was reached (`TerminalType`). -/
inductive TerminalType where
  | showdown
  | fold (folder : Player)
deriving DecidableEq

/-- A node of the river game tree (`TreeNode`, single-street fragment:
the `Chance` arm is used only by the multi-street builders, which no
embedded function reaches). -/
inductive TreeNode where
  | action (nodeId : Nat) (player : Player) (pot : ℚ) (stacks' : ℚ × ℚ)
      (actions : List Action) (children : List TreeNode)
  | terminal (ttype : TerminalType) (pot : ℚ) (stacks' : ℚ × ℚ) (invested : ℚ × ℚ)

/-! ## Showdown table and terminal values (`src/river_solver.rs`) -/

/-- Precomputed showdown data (`ShowdownTable`). -/
structure ShowdownTable where
  oopCombos : List (Nat × Nat)
  ipCombos : List (Nat × Nat)
  validIpForOop : List (List Nat)
  validOopForIp : List (List Nat)
  oopScores : List Nat
  ipScores : List Nat

/-- `ShowdownTable::new`: per-combo 7-card scores against the board, and
blocker-validity index lists obtained by pairwise card-intersection
tests. -/
def ShowdownTable.new (oopCombos ipCombos : List (Nat × Nat)) (board : List Nat) :
    ShowdownTable :=
  { oopCombos := oopCombos
    ipCombos := ipCombos
    oopScores := oopCombos.map (fun c => evaluateFast ([c.1, c.2] ++ board))
    ipScores := ipCombos.map (fun c => evaluateFast ([c.1, c.2] ++ board))
    validIpForOop := oopCombos.map (fun oop =>
      (List.range ipCombos.length).filter (fun j =>
        let ip := ipCombos.getD j (0, 0)
        oop.1 ≠ ip.1 ∧ oop.1 ≠ ip.2 ∧ oop.2 ≠ ip.1 ∧ oop.2 ≠ ip.2))
    validOopForIp := ipCombos.map (fun ip =>
      (List.range oopCombos.length).filter (fun i =>
        let oop := oopCombos.getD i (0, 0)
        ip.1 ≠ oop.1 ∧ ip.1 ≠ oop.2 ∧ ip.2 ≠ oop.1 ∧ ip.2 ≠ oop.2)) }

/-- The `1e-10` degenerate-reach threshold of `compute_terminal_value`. -/
def tol : ℚ := 1 / 10 ^ 10

/-- `compute_terminal_value`: terminal payoff for the traverser, as the
source computes it — an early `return 0.0` for reach mass below `1e-10`
guarding all terminal kinds, fold payoffs scaled by the reach sum, and a
showdown accumulation over the valid opponent combinations that skips
entries with reach below `1e-10`. -/
def computeTerminalValue (terminalType : TerminalType) (pot : ℚ) (invested : ℚ × ℚ)
    (traverser : Player) (handIdx : Nat) (oppReach : List ℚ)
    (showdown : ShowdownTable) : ℚ :=
  let oppReachSum := oppReach.sum
  if oppReachSum < tol then 0
  else
    let myInvested := pget invested traverser
    match terminalType with
    | .fold folder =>
        if folder = traverser then -myInvested * oppReachSum
        else (pot - myInvested) * oppReachSum
    | .showdown =>
        let winPayoff := pot - myInvested
        let losePayoff := -myInvested
        let tiePayoff := pot / 2 - myInvested
        let myScore := match traverser with
          | .OOP => showdown.oopScores.getD handIdx 0
          | .IP => showdown.ipScores.getD handIdx 0
        let valid := match traverser with
          | .OOP => showdown.validIpForOop.getD handIdx []
          | .IP => showdown.validOopForIp.getD handIdx []
        let oppScores := match traverser with
          | .OOP => showdown.ipScores
          | .IP => showdown.oopScores
        valid.foldl (fun value j =>
          if oppReach.getD j 0 < tol then value
          else
            let oppScore := oppScores.getD j 0
            let payoff := if oppScore < myScore then winPayoff
                          else if myScore < oppScore then losePayoff
                          else tiePayoff
            value + oppReach.getD j 0 * payoff) 0

/-- The terminal value as the amended claim states it: every terminal kind
returns 0 when the opponent reach mass Σ is below 10⁻¹⁰; otherwise a fold
by the traverser is worth −m·Σ, a fold by the opponent (p−m)·Σ, and a
showdown sums, over the valid opponent combinations j whose reach is at
least 10⁻¹⁰, (p−m)·r[j] when the traverser's score is higher, (−m)·r[j]
when lower, and (p/2−m)·r[j] on ties.  This definition follows the claim's
words (as a closed-form sum) and is compared with the source's
accumulation in `computeTerminalValue_matches_amended_spec`. -/
def specTerminalValue (terminalType : TerminalType) (pot : ℚ) (invested : ℚ × ℚ)
    (traverser : Player) (handIdx : Nat) (oppReach : List ℚ)
    (showdown : ShowdownTable) : ℚ :=
  if oppReach.sum < tol then 0
  else
    let m := pget invested traverser
    match terminalType with
    | .fold folder =>
        if folder = traverser then -m * oppReach.sum else (pot - m) * oppReach.sum
    | .showdown =>
        let myScore := match traverser with
          | .OOP => showdown.oopScores.getD handIdx 0
          | .IP => showdown.ipScores.getD handIdx 0
        let oppScores := match traverser with
          | .OOP => showdown.ipScores
          | .IP => showdown.oopScores
        let valid := match traverser with
          | .OOP => showdown.validIpForOop.getD handIdx []
          | .IP => showdown.validOopForIp.getD handIdx []
        (valid.map (fun j =>
          if tol ≤ oppReach.getD j 0 then
            oppReach.getD j 0 *
              (if oppScores.getD j 0 < myScore then pot - m
               else if myScore < oppScores.getD j 0 then -m
               else pot / 2 - m)
          else 0)).sum

/-! ## Tree builder (`src/postflop_tree.rs`) -/

/-- Builder configuration (`TreeConfig`). -/
structure TreeConfig where
  betSizes : List ℚ
  raiseSizes : List ℚ
  maxRaises : Nat
  startingPot : ℚ
  effectiveStack : ℚ
  addAllin : Bool

/-- The `0.01`-chip numerical tolerance of the tree builder. -/
def chipTol : ℚ := 1 / 100

/-- Shape of the recursive builder: the parameters of `build_node` after
the config — player, pot, stacks, invested, raises, facing_bet,
amount_to_call, oop_checked — plus the `next_id` counter, returning the
subtree and the advanced counter.  `build_open_action` and
`build_facing_bet` below are parameterised by this callback; `buildNode`
ties the knot with one unit less fuel at each level. -/
abbrev Builder : Type :=
  Player → ℚ → ℚ × ℚ → ℚ × ℚ → Nat → Bool → ℚ → Bool → Nat → TreeNode × Nat

/-- One iteration of the bet-size loop of `build_open_action`, carrying
(actions, children, added_allin, next_id).  A clamped bet below the 0.01
tolerance is dropped; a bet within 0.01 of all-in is added at most once;
otherwise the bet action and the opponent's facing-bet subtree are
appended. -/
def betStep (go : Builder) (player : Player) (pot : ℚ) (stacks' invested : ℚ × ℚ)
    (raises : Nat) (acc : List Action × List TreeNode × Bool × Nat) (frac : ℚ) :
    List Action × List TreeNode × Bool × Nat :=
  let remaining := pget stacks' player
  let bet := min (pot * frac) remaining
  if bet < chipTol then acc
  else if acc.2.2.1 = true ∧ |bet - remaining| < chipTol then acc
  else
    let res := go player.opponent (pot + bet)
      (pset stacks' player (pget stacks' player - bet))
      (pset invested player (pget invested player + bet)) raises true bet false acc.2.2.2
    (acc.1 ++ [Action.bet bet], acc.2.1 ++ [res.1],
     (if |bet - remaining| < chipTol then true else acc.2.2.1), res.2)

/-- `build_open_action`: Check (to the opponent's open node, or to a
check-back showdown), the configured bet sizes clamped to the remaining
stack, and an optional explicit all-in bet. -/
def buildOpenAction (config : TreeConfig) (go : Builder) (player : Player) (pot : ℚ)
    (stacks' invested : ℚ × ℚ) (raises : Nat) (isCheckBack : Bool) (nextId : Nat) :
    TreeNode × Nat :=
  let remaining := pget stacks' player
  let checkRes :=
    if isCheckBack then (TreeNode.terminal .showdown pot stacks' invested, nextId + 1)
    else go .IP pot stacks' invested raises false 0 true (nextId + 1)
  let betRes :=
    config.betSizes.foldl (betStep go player pot stacks' invested raises)
      ([], [], false, checkRes.2)
  let allRes :=
    if config.addAllin = true ∧ betRes.2.2.1 = false ∧ chipTol < remaining ∧
        config.betSizes ≠ [] ∧ pot * (1 / 5) < remaining then
      let res := go player.opponent (pot + remaining)
        (pset stacks' player (pget stacks' player - remaining))
        (pset invested player (pget invested player + remaining)) raises true remaining
        false betRes.2.2.2
      (betRes.1 ++ [Action.bet remaining], betRes.2.1 ++ [res.1], res.2)
    else (betRes.1, betRes.2.1, betRes.2.2.2)
  (TreeNode.action nextId player pot stacks'
    (Action.check :: allRes.1) (checkRes.1 :: allRes.2.1), allRes.2.2)

/-- One iteration of the raise-size loop of `build_facing_bet`, carrying
(actions, children, added_allin, next_id). -/
def raiseStep (go : Builder) (player : Player) (pot : ℚ) (stacks' invested : ℚ × ℚ)
    (raises : Nat) (callAmount remaining remainingAfterCall potAfterCall : ℚ)
    (acc : List Action × List TreeNode × Bool × Nat) (frac : ℚ) :
    List Action × List TreeNode × Bool × Nat :=
  let raiseAmount := min (potAfterCall * frac) remainingAfterCall
  if raiseAmount < chipTol then acc
  else
    let totalPutIn := callAmount + raiseAmount
    if acc.2.2.1 = true ∧ |totalPutIn - remaining| < chipTol then acc
    else
      let res := go player.opponent (pot + totalPutIn)
        (pset stacks' player (pget stacks' player - totalPutIn))
        (pset invested player (pget invested player + totalPutIn)) (raises + 1) true
        raiseAmount false acc.2.2.2
      (acc.1 ++ [Action.raise totalPutIn], acc.2.1 ++ [res.1],
       (if |totalPutIn - remaining| < chipTol then true else acc.2.2.1), res.2)

/-- `build_facing_bet`: Fold terminal, Call terminal (both arms of the
source's all-in test create the same Showdown terminal), and raise options
when under the raise cap with residual stack after calling, including an
optional explicit all-in raise that zeroes the actor's stack. -/
def buildFacingBet (config : TreeConfig) (go : Builder) (player : Player) (pot : ℚ)
    (stacks' invested : ℚ × ℚ) (raises : Nat) (amountToCall : ℚ) (nextId : Nat) :
    TreeNode × Nat :=
  let remaining := pget stacks' player
  let foldChild := TreeNode.terminal (.fold player) pot stacks' invested
  let callAmount := min amountToCall remaining
  let callChild := TreeNode.terminal .showdown (pot + callAmount)
    (pset stacks' player (pget stacks' player - callAmount))
    (pset invested player (pget invested player + callAmount))
  let remainingAfterCall := remaining - callAmount
  let raiseRes :=
    if raises < config.maxRaises ∧ chipTol < remainingAfterCall then
      let potAfterCall := pot + callAmount
      let loopRes :=
        config.raiseSizes.foldl
          (raiseStep go player pot stacks' invested raises callAmount remaining
            remainingAfterCall potAfterCall)
          ([], [], false, nextId + 1)
      if config.addAllin = true ∧ loopRes.2.2.1 = false ∧ chipTol < remainingAfterCall then
        let res := go player.opponent (pot + remaining)
          (pset stacks' player 0)
          (pset invested player (pget invested player + remaining)) (raises + 1) true
          (remaining - callAmount) false loopRes.2.2.2
        (loopRes.1 ++ [Action.raise remaining], loopRes.2.1 ++ [res.1], res.2)
      else (loopRes.1, loopRes.2.1, loopRes.2.2.2)
    else ([], [], nextId + 1)
  (TreeNode.action nextId player pot stacks'
    (Action.fold :: Action.call callAmount :: raiseRes.1)
    (foldChild :: callChild :: raiseRes.2.1), raiseRes.2.2)

/-- `build_node`, with an explicit fuel parameter for structural
recursion.  A player with less than 0.01 chips behind cannot act and the
node collapses to a Showdown terminal; otherwise the facing-bet,
check-back, or open dispatch of the source applies.  Fuel exhaustion also
yields a Showdown terminal; `buildTree` supplies fuel strictly exceeding
the recursion depth, and every invariant proved below holds for all fuel
values. -/
def buildNode (config : TreeConfig) : Nat → Builder
  | 0 => fun _ pot stacks' invested _ _ _ _ nextId =>
      (TreeNode.terminal .showdown pot stacks' invested, nextId)
  | fuel + 1 => fun player pot stacks' invested raises facingBet amountToCall oopChecked
      nextId =>
      let remaining := pget stacks' player
      if remaining < chipTol then
        (TreeNode.terminal .showdown pot stacks' invested, nextId)
      else if facingBet then
        buildFacingBet config (buildNode config fuel) player pot stacks' invested raises
          amountToCall nextId
      else if player = .IP ∧ oopChecked = true then
        buildOpenAction config (buildNode config fuel) player pot stacks' invested raises
          true nextId
      else if player = .OOP then
        buildOpenAction config (buildNode config fuel) player pot stacks' invested raises
          false nextId
      else
        (TreeNode.terminal .showdown pot stacks' invested, nextId)

/-- Fuel bound strictly exceeding the builder's recursion depth: the call
chain open → check-back open → facing-bet → (raises+1 facing-bet levels)
is bounded by `maxRaises + 4`. -/
def buildFuel (config : TreeConfig) : Nat := config.maxRaises + 8

/-- `build_tree`: root is OOP to act with no bet outstanding, zero raises,
equal stacks and nothing invested; returns the root and the number of
action nodes allocated. -/
def buildTree (config : TreeConfig) : TreeNode × Nat :=
  buildNode config (buildFuel config) .OOP config.startingPot
    (config.effectiveStack, config.effectiveStack) (0, 0) 0 false 0 false 0

/-! ## Structural predicates on built trees -/

mutual
/-- Pre-order listing of the action-node ids of a tree; terminal nodes
carry no id. -/
def preorderIds : TreeNode → List Nat
  | .terminal _ _ _ _ => []
  | .action nid _ _ _ _ children => nid :: preorderIdsList children

/-- Pre-order id listing of a forest. -/
def preorderIdsList : List TreeNode → List Nat
  | [] => []
  | c :: rest => preorderIds c ++ preorderIdsList rest
end

/-- Pot recorded at the top node of a tree. -/
def nodePot : TreeNode → ℚ
  | .action _ _ pot _ _ _ => pot
  | .terminal _ pot _ _ => pot

/-- Stack pair recorded at the top node of a tree. -/
def nodeStacks : TreeNode → ℚ × ℚ
  | .action _ _ _ st _ _ => st
  | .terminal _ _ st _ => st

/-- Chip contribution of an action along its edge: zero for a check, the
amount for a bet or call, the total put in for a raise, and none for a
fold (fold edges leave pot, stacks and invested untouched and are excluded
by the claim). -/
def contribution : Action → Option ℚ
  | .check => some 0
  | .bet a => some a
  | .call a => some a
  | .raise a => some a
  | .fold => none

/-- The pot/stack bookkeeping required of one (action, child) edge. -/
def edgeOkPair (player : Player) (pot : ℚ) (st : ℚ × ℚ) (pr : Action × TreeNode) : Prop :=
  ∀ amt, contribution pr.1 = some amt →
    nodePot pr.2 = pot + amt ∧
    pget (nodeStacks pr.2) player = pget st player - amt ∧
    pget (nodeStacks pr.2) player.opponent = pget st player.opponent

mutual
/-- Every non-fold edge of the tree adds the actor's contribution to the
pot, subtracts it from the actor's stack and leaves the other player's
stack unchanged. -/
def edgesOk : TreeNode → Prop
  | .terminal _ _ _ _ => True
  | .action _ player pot st actions children =>
      (∀ pr ∈ actions.zip children, edgeOkPair player pot st pr) ∧ edgesOkList children

/-- `edgesOk` across a forest. -/
def edgesOkList : List TreeNode → Prop
  | [] => True
  | c :: rest => edgesOk c ∧ edgesOkList rest
end

mutual
/-- Every terminal node's pot equals the starting pot plus both players'
invested amounts. -/
def terminalsOk (sp : ℚ) : TreeNode → Prop
  | .terminal _ pot _ inv => pot = sp + inv.1 + inv.2
  | .action _ _ _ _ _ children => terminalsOkList sp children

/-- `terminalsOk` across a forest. -/
def terminalsOkList (sp : ℚ) : List TreeNode → Prop
  | [] => True
  | c :: rest => terminalsOk sp c ∧ terminalsOkList sp rest
end

mutual
/-- At every action node the acting player has at least 0.01 chips
behind. -/
def actionStacksOk : TreeNode → Prop
  | .terminal _ _ _ _ => True
  | .action _ player _ st _ children =>
      chipTol ≤ pget st player ∧ actionStacksOkList children

/-- `actionStacksOk` across a forest. -/
def actionStacksOkList : List TreeNode → Prop
  | [] => True
  | c :: rest => actionStacksOk c ∧ actionStacksOkList rest
end

/-- Bundle of invariants of one builder result: the id counter only
advances, the pre-order action ids fill exactly the interval it advanced
over, the returned subtree records the pot and stacks it was called with,
all non-fold edges respect the pot/stack bookkeeping, all terminals
satisfy the pot identity reachable from the invested invariant, and every
action node's actor has at least the 0.01 tolerance behind. -/
def NodeGood (pot : ℚ) (st inv : ℚ × ℚ) (n : Nat) (res : TreeNode × Nat) : Prop :=
  n ≤ res.2 ∧
  preorderIds res.1 = List.range' n (res.2 - n) ∧
  nodePot res.1 = pot ∧
  nodeStacks res.1 = st ∧
  edgesOk res.1 ∧
  (∀ sp, pot = sp + inv.1 + inv.2 → terminalsOk sp res.1) ∧
  actionStacksOk res.1

/-- The invariant bundle, for every invocation of a builder. -/
def GoodBuild (go : Builder) : Prop :=
  ∀ p pot st inv r fb atc oc n, NodeGood pot st inv n (go p pot st inv r fb atc oc n)

/-- Invariant carried through the bet- and raise-size loops over the
accumulator (actions, children, added_allin, next_id). -/
def AccInv (player : Player) (pot : ℚ) (st inv : ℚ × ℚ) (n2 : Nat)
    (acc : List Action × List TreeNode × Bool × Nat) : Prop :=
  n2 ≤ acc.2.2.2 ∧
  acc.1.length = acc.2.1.length ∧
  preorderIdsList acc.2.1 = List.range' n2 (acc.2.2.2 - n2) ∧
  (∀ pr ∈ acc.1.zip acc.2.1, edgeOkPair player pot st pr) ∧
  edgesOkList acc.2.1 ∧
  (∀ sp, pot = sp + inv.1 + inv.2 → terminalsOkList sp acc.2.1) ∧
  actionStacksOkList acc.2.1

/-- Action list at the top node of a tree. -/
def actionsOf : TreeNode → List Action
  | .action _ _ _ _ acts _ => acts
  | .terminal _ _ _ _ => []

/-! ## CFR+ traversal (`src/river_solver.rs`, `cfr_traverse`) -/

/-- The strategy-accumulator weight of `cfr_traverse` at a traverser-owned
action node: the source computes the scalar reach sum and passes `1.0`
when it is positive and `0.0` otherwise. -/
def reachWeight (oppReach : List ℚ) : ℚ :=
  if 0 < oppReach.sum then 1 else 0

/-- Reach vector handed to the child of an opponent node for action `a`:
pointwise product of the current reach with the snapshot strategy column
(uniform `1/k` when the snapshot lacks the node), left at zero where the
reach is already zero. -/
def oppActionReach (oppReach : List ℚ) (oppStrats : Option (List (List ℚ)))
    (numActions a : Nat) : List ℚ :=
  (List.range oppReach.length).map (fun j =>
    if 0 < oppReach.getD j 0 then
      oppReach.getD j 0 *
        (match oppStrats with
         | some strats => (strats.getD j []).getD a 0
         | none => 1 / (numActions : ℚ))
    else 0)

/-- Whether a tree node is a terminal. -/
def TreeNode.isTerminal : TreeNode → Bool
  | .terminal _ _ _ _ => true
  | .action _ _ _ _ _ _ => false

mutual
/-- `cfr_traverse`: returns the counterfactual value for the traverser and
threads the mutated trainer.  At a traverser-owned node the current
strategy is read first, the children are traversed in order, the node
value is the strategy-weighted sum of the action values, and the info set
at (hand, node id) is updated with the `reachWeight` indicator.  At an
opponent node each action's child is traversed under the snapshot-scaled
reach and the values are summed. -/
def cfrTraverse (node : TreeNode) (traverser : Player) (handIdx : Nat)
    (oppReach : List ℚ) (showdown : ShowdownTable)
    (oppSnapshot : Nat → Option (List (List ℚ))) (trainer : Trainer) : ℚ × Trainer :=
  match node with
  | .terminal tt pot _ invested =>
      (computeTerminalValue tt pot invested traverser handIdx oppReach showdown, trainer)
  | .action nodeId player _ _ actions children =>
      let numActions := actions.length
      if player = traverser then
        let key : InfoSetKey := ⟨handIdx, nodeId⟩
        let strategy := trainer.getStrategy key numActions
        let rs := cfrTraverseKids children traverser handIdx oppReach showdown
          oppSnapshot trainer
        let nodeValue := ((strategy.zip rs.1).map (fun p => p.1 * p.2)).sum
        let data := (rs.2 key).getD (InfoSetData.new numActions)
        (nodeValue,
         rs.2.insert key (data.update rs.1 nodeValue (reachWeight oppReach)))
      else
        cfrTraverseOppKids children 0 traverser handIdx oppReach
          (oppSnapshot nodeId) numActions showdown oppSnapshot trainer

/-- Traverser-owned children, in order, threading the trainer. -/
def cfrTraverseKids (children : List TreeNode) (traverser : Player) (handIdx : Nat)
    (oppReach : List ℚ) (showdown : ShowdownTable)
    (oppSnapshot : Nat → Option (List (List ℚ))) (trainer : Trainer) :
    List ℚ × Trainer :=
  match children with
  | [] => ([], trainer)
  | c :: rest =>
      let r1 := cfrTraverse c traverser handIdx oppReach showdown oppSnapshot trainer
      let r2 := cfrTraverseKids rest traverser handIdx oppReach showdown oppSnapshot r1.2
      (r1.1 :: r2.1, r2.2)

/-- Opponent-owned children for actions `a, a+1, …`, threading the trainer
and summing the values. -/
def cfrTraverseOppKids (children : List TreeNode) (a : Nat) (traverser : Player)
    (handIdx : Nat) (oppReach : List ℚ) (oppStrats : Option (List (List ℚ)))
    (numActions : Nat) (showdown : ShowdownTable)
    (oppSnapshot : Nat → Option (List (List ℚ))) (trainer : Trainer) : ℚ × Trainer :=
  match children with
  | [] => (0, trainer)
  | c :: rest =>
      let r1 := cfrTraverse c traverser handIdx
        (oppActionReach oppReach oppStrats numActions a) showdown oppSnapshot trainer
      let r2 := cfrTraverseOppKids rest (a + 1) traverser handIdx oppReach oppStrats
        numActions showdown oppSnapshot r1.2
      (r1.1 + r2.1, r2.2)
end

/-! ## Best response and exploitability (`src/river_solver.rs`) -/

/-- Reach vector handed to the child of an opponent node for action `a` in
the best-response and average-strategy traversals: pointwise product of
the reach with the opponent's average strategy read from the store. -/
def avgActionReach (oppReach : List ℚ) (nodeId numActions : Nat) (trainer : Trainer)
    (a : Nat) : List ℚ :=
  (List.range oppReach.length).map (fun j =>
    if 0 < oppReach.getD j 0 then
      oppReach.getD j 0 *
        (trainer.getAverageStrategy ⟨j, nodeId⟩ numActions).getD a 0
    else 0)

mutual
/-- `br_traverse`: the best-response player maximises over its actions
(the source folds `v > best` from `NEG_INFINITY`; over the nonempty action
lists of well-formed trees this is the list maximum), while the opponent
plays the average strategy. -/
def brTraverse (node : TreeNode) (brPlayer : Player) (handIdx : Nat)
    (oppReach : List ℚ) (showdown : ShowdownTable) (trainer : Trainer) : ℚ :=
  match node with
  | .terminal tt pot _ invested =>
      computeTerminalValue tt pot invested brPlayer handIdx oppReach showdown
  | .action nodeId player _ _ actions children =>
      if player = brPlayer then
        (brKidsVals children brPlayer handIdx oppReach showdown trainer).max?.getD 0
      else
        brOppSum children 0 nodeId actions.length brPlayer handIdx oppReach showdown
          trainer

/-- Best-response values of a forest under one reach vector. -/
def brKidsVals (children : List TreeNode) (brPlayer : Player) (handIdx : Nat)
    (oppReach : List ℚ) (showdown : ShowdownTable) (trainer : Trainer) : List ℚ :=
  match children with
  | [] => []
  | c :: rest =>
      brTraverse c brPlayer handIdx oppReach showdown trainer ::
        brKidsVals rest brPlayer handIdx oppReach showdown trainer

/-- Opponent-node sum of best-response child values for actions `a, a+1, …`,
each under the average-strategy-scaled reach. -/
def brOppSum (children : List TreeNode) (a nodeId numActions : Nat) (brPlayer : Player)
    (handIdx : Nat) (oppReach : List ℚ) (showdown : ShowdownTable)
    (trainer : Trainer) : ℚ :=
  match children with
  | [] => 0
  | c :: rest =>
      brTraverse c brPlayer handIdx
          (avgActionReach oppReach nodeId numActions trainer a) showdown trainer
        + brOppSum rest (a + 1) nodeId numActions brPlayer handIdx oppReach showdown
            trainer
end

mutual
/-- `avg_strategy_traverse`: both players play the average strategy. -/
def avgStrategyTraverse (node : TreeNode) (perspective : Player) (handIdx : Nat)
    (oppReach : List ℚ) (showdown : ShowdownTable) (trainer : Trainer) : ℚ :=
  match node with
  | .terminal tt pot _ invested =>
      computeTerminalValue tt pot invested perspective handIdx oppReach showdown
  | .action nodeId player _ _ actions children =>
      if player = perspective then
        avgOwnSum children 0
          (trainer.getAverageStrategy ⟨handIdx, nodeId⟩ actions.length) perspective
          handIdx oppReach showdown trainer
      else
        avgOppSum children 0 nodeId actions.length perspective handIdx oppReach
          showdown trainer

/-- Own-node average-strategy-weighted sum of child values. -/
def avgOwnSum (children : List TreeNode) (a : Nat) (avg : List ℚ)
    (perspective : Player) (handIdx : Nat) (oppReach : List ℚ)
    (showdown : ShowdownTable) (trainer : Trainer) : ℚ :=
  match children with
  | [] => 0
  | c :: rest =>
      avg.getD a 0 * avgStrategyTraverse c perspective handIdx oppReach showdown trainer
        + avgOwnSum rest (a + 1) avg perspective handIdx oppReach showdown trainer

/-- Opponent-node sum of average-strategy child values for actions
`a, a+1, …`, each under the average-strategy-scaled reach. -/
def avgOppSum (children : List TreeNode) (a nodeId numActions : Nat)
    (perspective : Player) (handIdx : Nat) (oppReach : List ℚ)
    (showdown : ShowdownTable) (trainer : Trainer) : ℚ :=
  match children with
  | [] => 0
  | c :: rest =>
      avgStrategyTraverse c perspective handIdx
          (avgActionReach oppReach nodeId numActions trainer a) showdown trainer
        + avgOppSum rest (a + 1) nodeId numActions perspective handIdx oppReach
            showdown trainer
end

/-- Indicator reach vector over `n` opponent combinations: 1 at the valid
indices, 0 elsewhere. -/
def indicatorReach (valid : List Nat) (n : Nat) : List ℚ :=
  (List.range n).map (fun j => if j ∈ valid then 1 else 0)

/-- `best_response_value`: mean over the best-response player's
combinations of the gap between the best-response value and the
average-strategy value, each hand starting from its blocker-indicator
reach. -/
def bestResponseValue (tree : TreeNode) (brPlayer : Player) (trainer : Trainer)
    (showdown : ShowdownTable) : ℚ :=
  let numBr := match brPlayer with
    | .OOP => showdown.oopCombos.length
    | .IP => showdown.ipCombos.length
  let numOpp := match brPlayer with
    | .OOP => showdown.ipCombos.length
    | .IP => showdown.oopCombos.length
  let validOf := match brPlayer with
    | .OOP => showdown.validIpForOop
    | .IP => showdown.validOopForIp
  let totalGain := ((List.range numBr).map (fun h =>
    brTraverse tree brPlayer h (indicatorReach (validOf.getD h []) numOpp) showdown
        trainer
      - avgStrategyTraverse tree brPlayer h (indicatorReach (validOf.getD h []) numOpp)
          showdown trainer)).sum
  totalGain / (numBr : ℚ)

/-- `compute_exploitability`: half the sum of both players' best-response
gains. -/
def computeExploitability (tree : TreeNode) (trainer : Trainer)
    (showdown : ShowdownTable) : ℚ :=
  (bestResponseValue tree Player.OOP trainer showdown
    + bestResponseValue tree Player.IP trainer showdown) / 2

mutual
/-- Well-formedness of a tree as the spec's data-model invariant states
it: every action node has at least one action and as many children as
actions (the source indexes `children[a]` for `a < num_actions`). -/
def wfTree : TreeNode → Prop
  | .terminal _ _ _ _ => True
  | .action _ _ _ _ actions children =>
      actions ≠ [] ∧ children.length = actions.length ∧ wfForest children

/-- `wfTree` across a forest. -/
def wfForest : List TreeNode → Prop
  | [] => True
  | c :: rest => wfTree c ∧ wfForest rest
end

mutual
/-- The (node id, action count) pairs of all action nodes of a tree. -/
def nodeActionCounts : TreeNode → List (Nat × Nat)
  | .terminal _ _ _ _ => []
  | .action nid _ _ _ actions children =>
      (nid, actions.length) :: nodeActionCountsList children

/-- `nodeActionCounts` across a forest. -/
def nodeActionCountsList : List TreeNode → List (Nat × Nat)
  | [] => []
  | c :: rest => nodeActionCounts c ++ nodeActionCountsList rest
end

/-! ## Solver construction (`src/river_solver.rs`, `RiverSolverConfig::new`) -/

/-- Solver configuration (`RiverSolverConfig`), with the board already
decoded to card indices and the ranges as the parsed lists of canonical
hand-class strings — notation parsing is an external collaborator per the
spec, so `new` below is parameterised over the parsers' outputs. -/
structure RiverSolverConfig where
  board : List Nat
  oopRange : List String
  ipRange : List String
  startingPot : ℚ
  effectiveStack : ℚ
  iterations : Nat
  betSizes : List ℚ
  raiseSizes : List ℚ
  maxRaises : Nat
deriving DecidableEq

/-- `RiverSolverConfig::new`: rejects a parsed board without exactly five
cards and either range whose parsed class list is empty, then stores the
inputs with the default river bet/raise sizes.  Pot and stack are stored
without any validation, and board-blocker filtering happens later in
`solve_river` (an empty post-blocker range yields an empty solution there,
not an error). -/
def riverSolverConfigNew (board : List Nat) (oopRange ipRange : List String)
    (startingPot effectiveStack : ℚ) (iterations : Nat) :
    Except String RiverSolverConfig :=
  if board.length ≠ 5 then
    Except.error "River board must have exactly 5 cards"
  else if oopRange = [] then
    Except.error "OOP range is empty"
  else if ipRange = [] then
    Except.error "IP range is empty"
  else
    Except.ok ⟨board, oopRange, ipRange, startingPot, effectiveStack, iterations,
      [33 / 100, 67 / 100, 1], [1], 3⟩

/-! ## Lemmas and claim theorems -/

/-- C1: the spec guarantees that for every 7-card hand the score equals the
maximum of `evaluate_fast` over its 5-card subsets.  The code violates
this: on the 7-card hand `3s 3h 3d 3c 2s 2h As` (indices
`[4,5,6,7,0,1,48]`, quad threes + pair of twos + ace) the quads branch
prefers the pair rank over the higher single as kicker, scoring
`0x732000 = 7544832` (kicker Two), strictly below the score `0x73E000 =
7593984` of its own 5-card subset `3s 3h 3d 3c As` (kicker Ace). -/
theorem evaluateFast_seven_card_quad_kicker_bug :
    evaluateFast [4, 5, 6, 7, 0, 1, 48] = 7544832 ∧
    evaluateFast [4, 5, 6, 7, 48] = 7593984 ∧
    evaluateFast [4, 5, 6, 7, 0, 1, 48] < evaluateFast [4, 5, 6, 7, 48] ∧
    List.Sublist [4, 5, 6, 7, 48] [4, 5, 6, 7, 0, 1, 48] := by
  refine ⟨by decide, by decide, by decide, ?_⟩
  decide

/-- Sum of a list of rationals as an indexed sum over its positions. -/
lemma sum_eq_range_getD (l : List ℚ) (n : Nat) (h : l.length = n) :
    l.sum = ∑ b ∈ Finset.range n, l.getD b 0 := by
  subst h
  induction l with
  | nil => simp
  | cons x xs ih =>
      rw [List.sum_cons, ih, List.length_cons, Finset.sum_range_succ']
      simp only [List.getD_cons_succ, List.getD_cons_zero]
      ring

/-- Reading a mapped list at a position, for maps that fix the default. -/
lemma getD_map_zero {f : ℚ → ℚ} (hf : f 0 = 0) (l : List ℚ) (b : Nat) :
    (l.map f).getD b 0 = f (l.getD b 0) := by
  induction l generalizing b with
  | nil => simpa using hf.symm
  | cons x xs ih =>
      cases b with
      | zero => simp
      | succ b => simpa using ih b

/-- Reading `(List.range n).map g` at a position below `n`. -/
lemma getD_map_range {g : Nat → ℚ} (n a : Nat) (ha : a < n) :
    ((List.range n).map g).getD a 0 = g a := by
  rw [List.getD_eq_getElem?_getD, List.getElem?_map, List.getElem?_range ha]
  rfl

/-- Reading a replicated list at a position below its length. -/
lemma getD_replicate (n : Nat) (x : ℚ) (a : Nat) (ha : a < n) :
    (List.replicate n x).getD a 0 = x := by
  rw [List.getD_eq_getElem?_getD, List.getElem?_replicate]
  simp [ha]

/-- C3: regret matching, CFR+ update, and average-strategy readout satisfy
the spec formulas.  With `k = numActions` and well-sized vectors:
the current strategy is `max(R_a,0) / Σ_b max(R_b,0)` (uniform `1/k` when
that denominator vanishes); `update` sets `R_a := max(R_a + (u_a − U), 0)`
— in particular every cumulative regret is nonnegative after any update —
and adds `w·σ_a` to `S_a`; the average strategy is `S_a / Σ_b S_b`
(uniform when the denominator vanishes, which for the nonnegative
accumulators produced by nonnegative weights is exactly the zero case). -/
theorem infoSetData_matches_spec (d : InfoSetData) (u : List ℚ) (U w : ℚ) (a : Nat)
    (hreg : d.cumulativeRegret.length = d.numActions)
    (hstr : d.cumulativeStrategy.length = d.numActions)
    (hS : ∀ x ∈ d.cumulativeStrategy, 0 ≤ x)
    (hw : 0 ≤ w)
    (ha : a < d.numActions) :
    (d.currentStrategy.getD a 0 =
       if (∑ b ∈ Finset.range d.numActions, max (d.cumulativeRegret.getD b 0) 0) = 0
       then 1 / (d.numActions : ℚ)
       else max (d.cumulativeRegret.getD a 0) 0 /
            ∑ b ∈ Finset.range d.numActions, max (d.cumulativeRegret.getD b 0) 0) ∧
    ((d.update u U w).cumulativeRegret.getD a 0 =
       max (d.cumulativeRegret.getD a 0 + (u.getD a 0 - U)) 0) ∧
    (0 ≤ (d.update u U w).cumulativeRegret.getD a 0) ∧
    ((d.update u U w).cumulativeStrategy.getD a 0 =
       d.cumulativeStrategy.getD a 0 + w * d.currentStrategy.getD a 0) ∧
    (d.averageStrategy.getD a 0 =
       if (∑ b ∈ Finset.range d.numActions, d.cumulativeStrategy.getD b 0) = 0
       then 1 / (d.numActions : ℚ)
       else d.cumulativeStrategy.getD a 0 /
            ∑ b ∈ Finset.range d.numActions, d.cumulativeStrategy.getD b 0) := by
  have hsumR : (d.cumulativeRegret.map (fun r => max r 0)).sum =
      ∑ b ∈ Finset.range d.numActions, max (d.cumulativeRegret.getD b 0) 0 := by
    rw [sum_eq_range_getD _ d.numActions (by simpa using hreg)]
    exact Finset.sum_congr rfl (fun b _ => getD_map_zero (by simp) _ b)
  have hsumS : d.cumulativeStrategy.sum =
      ∑ b ∈ Finset.range d.numActions, d.cumulativeStrategy.getD b 0 :=
    sum_eq_range_getD _ d.numActions hstr
  have hRnonneg : 0 ≤ (d.cumulativeRegret.map (fun r => max r 0)).sum :=
    List.sum_nonneg (by
      intro x hx
      rcases List.mem_map.1 hx with ⟨r, _, rfl⟩
      exact le_max_right r 0)
  have hSnonneg : 0 ≤ d.cumulativeStrategy.sum := List.sum_nonneg hS
  refine ⟨?_, ?_, ?_, ?_, ?_⟩
  · unfold InfoSetData.currentStrategy
    by_cases hpos : 0 < (d.cumulativeRegret.map (fun r => max r 0)).sum
    · have hne : (∑ b ∈ Finset.range d.numActions,
          max (d.cumulativeRegret.getD b 0) 0) ≠ 0 := by
        rw [← hsumR]; exact ne_of_gt hpos
      simp only [hpos, if_true, hne, if_false]
      rw [getD_map_zero (by simp) _ a, hsumR]
    · have hz2 : (∑ b ∈ Finset.range d.numActions,
          max (d.cumulativeRegret.getD b 0) 0) = 0 := by
        rw [← hsumR]; exact le_antisymm (not_lt.1 hpos) hRnonneg
      simp only [hpos, if_false, hz2, if_true]
      exact getD_replicate _ _ _ ha
  · unfold InfoSetData.update
    exact getD_map_range d.numActions a ha
  · unfold InfoSetData.update
    rw [getD_map_range d.numActions a ha]
    exact le_max_right _ 0
  · unfold InfoSetData.update
    exact getD_map_range d.numActions a ha
  · unfold InfoSetData.averageStrategy
    by_cases hpos : 0 < d.cumulativeStrategy.sum
    · have hne : (∑ b ∈ Finset.range d.numActions,
          d.cumulativeStrategy.getD b 0) ≠ 0 := by
        rw [← hsumS]; exact ne_of_gt hpos
      simp only [hpos, if_true, hne, if_false]
      rw [getD_map_zero (by simp) _ a, hsumS]
    · have hz2 : (∑ b ∈ Finset.range d.numActions,
          d.cumulativeStrategy.getD b 0) = 0 := by
        rw [← hsumS]; exact le_antisymm (not_lt.1 hpos) hSnonneg
      simp only [hpos, if_false, hz2, if_true]
      exact getD_replicate _ _ _ ha

/-- Witness for `infoSetData_matches_spec` at a concrete info set:
`k = 2`, regrets `[3, 1]`, strategy accumulator `[3, 2]`,
utilities `[5, 1]`, node utility `2`, weight `1`, action `0`. -/
theorem infoSetData_matches_spec_witness :
    ((⟨2, [3, 1], [3, 2]⟩ : InfoSetData).currentStrategy.getD 0 0 =
       if (∑ b ∈ Finset.range 2,
            max ((⟨2, [3, 1], [3, 2]⟩ : InfoSetData).cumulativeRegret.getD b 0) 0) = 0
       then 1 / ((2 : Nat) : ℚ)
       else max ((⟨2, [3, 1], [3, 2]⟩ : InfoSetData).cumulativeRegret.getD 0 0) 0 /
            ∑ b ∈ Finset.range 2,
              max ((⟨2, [3, 1], [3, 2]⟩ : InfoSetData).cumulativeRegret.getD b 0) 0) ∧
    (((⟨2, [3, 1], [3, 2]⟩ : InfoSetData).update [5, 1] 2 1).cumulativeRegret.getD 0 0 =
       max ((⟨2, [3, 1], [3, 2]⟩ : InfoSetData).cumulativeRegret.getD 0 0 +
         (([5, 1] : List ℚ).getD 0 0 - 2)) 0) ∧
    (0 ≤ ((⟨2, [3, 1], [3, 2]⟩ : InfoSetData).update [5, 1] 2 1).cumulativeRegret.getD 0 0) ∧
    (((⟨2, [3, 1], [3, 2]⟩ : InfoSetData).update [5, 1] 2 1).cumulativeStrategy.getD 0 0 =
       (⟨2, [3, 1], [3, 2]⟩ : InfoSetData).cumulativeStrategy.getD 0 0 +
       1 * (⟨2, [3, 1], [3, 2]⟩ : InfoSetData).currentStrategy.getD 0 0) ∧
    ((⟨2, [3, 1], [3, 2]⟩ : InfoSetData).averageStrategy.getD 0 0 =
       if (∑ b ∈ Finset.range 2,
            (⟨2, [3, 1], [3, 2]⟩ : InfoSetData).cumulativeStrategy.getD b 0) = 0
       then 1 / ((2 : Nat) : ℚ)
       else (⟨2, [3, 1], [3, 2]⟩ : InfoSetData).cumulativeStrategy.getD 0 0 /
            ∑ b ∈ Finset.range 2,
              (⟨2, [3, 1], [3, 2]⟩ : InfoSetData).cumulativeStrategy.getD b 0) :=
  infoSetData_matches_spec ⟨2, [3, 1], [3, 2]⟩ [5, 1] 2 1 0
    rfl rfl
    (by
      intro x hx
      simp only [List.mem_cons, List.not_mem_nil, or_false] at hx
      rcases hx with rfl | rfl <;> norm_num)
    (by norm_num) (by norm_num)

/-- A guarded left accumulation is the sum of its guarded contributions. -/
lemma foldl_guarded_sum (r : List ℚ) (g : Nat → ℚ) (l : List Nat) (init : ℚ) :
    l.foldl (fun v j => if r.getD j 0 < tol then v else v + r.getD j 0 * g j) init
      = init + (l.map (fun j =>
          if tol ≤ r.getD j 0 then r.getD j 0 * g j else 0)).sum := by
  induction l generalizing init with
  | nil => simp
  | cons j l ih =>
      simp only [List.foldl_cons, List.map_cons, List.sum_cons, ih]
      by_cases hj : r.getD j 0 < tol
      · rw [if_pos hj, if_neg (not_le.2 hj)]
        ring
      · rw [if_neg hj, if_pos (not_lt.1 hj)]
        ring

/-- C2 (amended): the source's terminal value agrees everywhere with the
amended spec formula — the 10⁻¹⁰ degenerate-reach guard applies to all
terminal kinds (folds included), and the showdown sum includes exactly the
valid opponent combinations with reach at least 10⁻¹⁰. -/
theorem computeTerminalValue_matches_amended_spec (terminalType : TerminalType)
    (pot : ℚ) (invested : ℚ × ℚ) (traverser : Player) (handIdx : Nat)
    (oppReach : List ℚ) (showdown : ShowdownTable) :
    computeTerminalValue terminalType pot invested traverser handIdx oppReach showdown
      = specTerminalValue terminalType pot invested traverser handIdx oppReach showdown := by
  unfold computeTerminalValue specTerminalValue
  by_cases hs : oppReach.sum < tol
  · simp [hs]
  · simp only [hs, if_false]
    cases terminalType with
    | fold folder => rfl
    | showdown =>
        cases traverser with
        | OOP =>
            simpa using foldl_guarded_sum oppReach
              (fun j =>
                if showdown.ipScores.getD j 0 < showdown.oopScores.getD handIdx 0 then
                  pot - pget invested Player.OOP
                else if showdown.oopScores.getD handIdx 0 < showdown.ipScores.getD j 0 then
                  -pget invested Player.OOP
                else pot / 2 - pget invested Player.OOP)
              (showdown.validIpForOop.getD handIdx []) 0
        | IP =>
            simpa using foldl_guarded_sum oppReach
              (fun j =>
                if showdown.oopScores.getD j 0 < showdown.ipScores.getD handIdx 0 then
                  pot - pget invested Player.IP
                else if showdown.ipScores.getD handIdx 0 < showdown.oopScores.getD j 0 then
                  -pget invested Player.IP
                else pot / 2 - pget invested Player.IP)
              (showdown.validOopForIp.getD handIdx []) 0

/-- C2 counterexample to the claim as frozen: a fold terminal with a tiny
positive opponent reach mass Σ = 10⁻¹¹ < 10⁻¹⁰ returns 0, although the
claim's fold clause (stated without the degeneracy guard, which the claim
reserves for showdowns) demands −m·Σ = −10·10⁻¹¹ ≠ 0. -/
theorem computeTerminalValue_fold_guard_counterexample :
    computeTerminalValue (.fold .OOP) 20 (10, 10) .OOP 0 [1 / 10 ^ 11]
        (ShowdownTable.new [(0, 1)] [(2, 3)] [8, 12, 16, 20, 24]) = 0 ∧
    -(10 : ℚ) * ((1 : ℚ) / 10 ^ 11) ≠ 0 := by
  constructor
  · unfold computeTerminalValue
    norm_num [tol]
  · norm_num

/-! ## Builder invariants -/

lemma pget_pset_same (s : ℚ × ℚ) (p : Player) (v : ℚ) : pget (pset s p v) p = v := by
  cases p <;> rfl

lemma pget_pset_opp (s : ℚ × ℚ) (p : Player) (v : ℚ) :
    pget (pset s p v) p.opponent = pget s p.opponent := by
  cases p <;> rfl

lemma pset_add_sum (inv : ℚ × ℚ) (p : Player) (x : ℚ) :
    (pset inv p (pget inv p + x)).1 + (pset inv p (pget inv p + x)).2
      = inv.1 + inv.2 + x := by
  cases p <;> simp [pget, pset] <;> ring

lemma preorderIdsList_append (l1 l2 : List TreeNode) :
    preorderIdsList (l1 ++ l2) = preorderIdsList l1 ++ preorderIdsList l2 := by
  induction l1 with
  | nil => simp [preorderIdsList]
  | cons c rest ih => simp [preorderIdsList, ih]

lemma edgesOkList_iff (l : List TreeNode) : edgesOkList l ↔ ∀ c ∈ l, edgesOk c := by
  induction l with
  | nil => simp [edgesOkList]
  | cons c rest ih => simp [edgesOkList, ih]

lemma terminalsOkList_iff (sp : ℚ) (l : List TreeNode) :
    terminalsOkList sp l ↔ ∀ c ∈ l, terminalsOk sp c := by
  induction l with
  | nil => simp [terminalsOkList]
  | cons c rest ih => simp [terminalsOkList, ih]

lemma actionStacksOkList_iff (l : List TreeNode) :
    actionStacksOkList l ↔ ∀ c ∈ l, actionStacksOk c := by
  induction l with
  | nil => simp [actionStacksOkList]
  | cons c rest ih => simp [actionStacksOkList, ih]

lemma range'_glue (a b c : Nat) (hab : a ≤ b) (hbc : b ≤ c) :
    List.range' a (b - a) ++ List.range' b (c - b) = List.range' a (c - a) := by
  have h := List.range'_append_1 a (b - a) (c - b)
  rw [Nat.add_sub_cancel' hab] at h
  rw [h]
  congr 1
  omega

/-- A directly-created terminal node satisfies the invariant bundle. -/
lemma nodeGood_terminal (tt : TerminalType) (pot : ℚ) (st inv : ℚ × ℚ) (n : Nat) :
    NodeGood pot st inv n (TreeNode.terminal tt pot st inv, n) := by
  refine ⟨le_refl n, ?_, rfl, rfl, ?_, ?_, ?_⟩
  · simp [preorderIds]
  · simp [edgesOk]
  · intro sp hsp
    simpa [terminalsOk] using hsp
  · simp [actionStacksOk]

/-- Pre-order ids of an assembled action node, from the id interval of its
children. -/
lemma preorder_action_ids (nid m : Nat) (player : Player) (pot : ℚ) (st : ℚ × ℚ)
    (acts : List Action) (childs : List TreeNode)
    (h : nid + 1 ≤ m)
    (hl : preorderIdsList childs = List.range' (nid + 1) (m - (nid + 1))) :
    preorderIds (TreeNode.action nid player pot st acts childs)
      = List.range' nid (m - nid) := by
  have hm : m - nid = (m - (nid + 1)) + 1 := by omega
  rw [hm, List.range'_succ]
  simp [preorderIds, hl]

/-- Glueing one child's id interval in front of a forest's. -/
lemma preorderIdsList_cons_glue (c : TreeNode) (childs : List TreeNode) (a b m : Nat)
    (hab : a ≤ b) (hbm : b ≤ m)
    (hc : preorderIds c = List.range' a (b - a))
    (hl : preorderIdsList childs = List.range' b (m - b)) :
    preorderIdsList (c :: childs) = List.range' a (m - a) := by
  have : preorderIdsList (c :: childs) = preorderIds c ++ preorderIdsList childs := by
    simp [preorderIdsList]
  rw [this, hc, hl]
  exact range'_glue a b m hab hbm

/-- The empty loop accumulator satisfies the loop invariant. -/
lemma accInv_init (player : Player) (pot : ℚ) (st inv : ℚ × ℚ) (n2 : Nat) :
    AccInv player pot st inv n2 ([], [], false, n2) := by
  refine ⟨le_refl _, rfl, by simp [preorderIdsList], ?_, ?_, ?_, ?_⟩
  · intro pr hpr
    simp at hpr
  · simp [edgesOkList]
  · intro sp _
    simp [terminalsOkList]
  · simp [actionStacksOkList]

/-- Appending one matched (action, child) pair built by a `GoodBuild`
callback with contribution `amt` preserves `AccInv`. -/
lemma accInv_append (player : Player) (pot : ℚ) (st inv : ℚ × ℚ) (n2 : Nat)
    (actions : List Action) (children : List TreeNode) (added added2 : Bool) (nid : Nat)
    (go : Builder) (hgo : GoodBuild go) (act : Action) (amt : ℚ)
    (hamt : contribution act = some amt) (r : Nat) (fb : Bool) (atc : ℚ) (oc : Bool)
    (h : AccInv player pot st inv n2 (actions, children, added, nid)) :
    AccInv player pot st inv n2
      (actions ++ [act],
       children ++ [(go player.opponent (pot + amt)
          (pset st player (pget st player - amt))
          (pset inv player (pget inv player + amt)) r fb atc oc nid).1],
       added2,
       (go player.opponent (pot + amt)
          (pset st player (pget st player - amt))
          (pset inv player (pget inv player + amt)) r fb atc oc nid).2) := by
  obtain ⟨h1, h2, h3, h4, h5, h6, h7⟩ := h
  obtain ⟨g1, g2, g3, g4, g5, g6, g7⟩ :=
    hgo player.opponent (pot + amt)
      (pset st player (pget st player - amt))
      (pset inv player (pget inv player + amt)) r fb atc oc nid
  refine ⟨le_trans h1 g1, by simpa using h2, ?_, ?_, ?_, ?_, ?_⟩
  · rw [preorderIdsList_append]
    simp only [preorderIdsList, List.append_nil]
    rw [h3, g2]
    exact range'_glue n2 nid _ h1 g1
  · intro pr hpr
    rw [List.zip_append h2] at hpr
    rcases List.mem_append.1 hpr with hin | hin
    · exact h4 pr hin
    · simp only [List.zip_cons_cons, List.zip_nil_right, List.mem_singleton] at hin
      subst hin
      intro amt2 hamt2
      rw [hamt] at hamt2
      cases hamt2
      exact ⟨g3, by rw [g4, pget_pset_same], by rw [g4, pget_pset_opp]⟩
  · rw [edgesOkList_iff] at h5 ⊢
    intro c hc
    rcases List.mem_append.1 hc with hin | hin
    · exact h5 c hin
    · rw [List.mem_singleton] at hin
      subst hin
      exact g5
  · intro sp hsp
    rw [terminalsOkList_iff]
    intro c hc
    rcases List.mem_append.1 hc with hin | hin
    · exact (terminalsOkList_iff sp children).1 (h6 sp hsp) c hin
    · rw [List.mem_singleton] at hin
      subst hin
      refine g6 sp ?_
      have hps := pset_add_sum inv player amt
      rw [hsp]
      linarith
  · rw [actionStacksOkList_iff] at h7 ⊢
    intro c hc
    rcases List.mem_append.1 hc with hin | hin
    · exact h7 c hin
    · rw [List.mem_singleton] at hin
      subst hin
      exact g7

/-- `betStep` preserves the loop invariant. -/
lemma betStep_inv (go : Builder) (hgo : GoodBuild go) (player : Player) (pot : ℚ)
    (st inv : ℚ × ℚ) (raises n2 : Nat)
    (acc : List Action × List TreeNode × Bool × Nat) (frac : ℚ)
    (h : AccInv player pot st inv n2 acc) :
    AccInv player pot st inv n2 (betStep go player pot st inv raises acc frac) := by
  obtain ⟨actions, children, added, nid⟩ := acc
  unfold betStep
  simp only
  by_cases hb : min (pot * frac) (pget st player) < chipTol
  · simpa [hb] using h
  · simp only [hb, if_false]
    by_cases hskip : added = true ∧
        |min (pot * frac) (pget st player) - pget st player| < chipTol
    · simpa [hskip] using h
    · simp only [hskip, if_false]
      exact accInv_append player pot st inv n2 actions children added _ nid go hgo
        (Action.bet (min (pot * frac) (pget st player)))
        (min (pot * frac) (pget st player)) rfl raises true
        (min (pot * frac) (pget st player)) false h

/-- `raiseStep` preserves the loop invariant. -/
lemma raiseStep_inv (go : Builder) (hgo : GoodBuild go) (player : Player) (pot : ℚ)
    (st inv : ℚ × ℚ) (raises : Nat) (callAmount remaining remainingAfterCall
    potAfterCall : ℚ) (n2 : Nat)
    (acc : List Action × List TreeNode × Bool × Nat) (frac : ℚ)
    (h : AccInv player pot st inv n2 acc) :
    AccInv player pot st inv n2
      (raiseStep go player pot st inv raises callAmount remaining remainingAfterCall
        potAfterCall acc frac) := by
  obtain ⟨actions, children, added, nid⟩ := acc
  unfold raiseStep
  simp only
  by_cases hb : min (potAfterCall * frac) remainingAfterCall < chipTol
  · simpa [hb] using h
  · simp only [hb, if_false]
    by_cases hskip : added = true ∧
        |callAmount + min (potAfterCall * frac) remainingAfterCall - remaining| < chipTol
    · simpa [hskip] using h
    · simp only [hskip, if_false]
      exact accInv_append player pot st inv n2 actions children added _ nid go hgo
        (Action.raise (callAmount + min (potAfterCall * frac) remainingAfterCall))
        (callAmount + min (potAfterCall * frac) remainingAfterCall) rfl (raises + 1) true
        (min (potAfterCall * frac) remainingAfterCall) false h

/-- A fold preserves any invariant its step preserves. -/
lemma foldl_preserve {α β : Type} (P : α → Prop) (f : α → β → α)
    (hf : ∀ a b, P a → P (f a b)) : ∀ (l : List β) (a : α), P a → P (List.foldl f a l) := by
  intro l
  induction l with
  | nil => intro a h; simpa using h
  | cons b rest ih =>
      intro a h
      rw [List.foldl_cons]
      exact ih _ (hf a b h)

/-- Assembling an action node from one leading child plus the loop
accumulator preserves the invariant bundle. -/
lemma nodeGood_assemble (player : Player) (pot : ℚ) (st inv : ℚ × ℚ) (n : Nat)
    (c : TreeNode) (m2 : Nat) (acts : List Action) (childs : List TreeNode)
    (added : Bool) (m4 : Nat) (a0 : Action)
    (hcn : n + 1 ≤ m2)
    (hcids : preorderIds c = List.range' (n + 1) (m2 - (n + 1)))
    (hcedge : edgeOkPair player pot st (a0, c))
    (hcok : edgesOk c)
    (hcterm : ∀ sp, pot = sp + inv.1 + inv.2 → terminalsOk sp c)
    (hcstk : actionStacksOk c)
    (hacc : AccInv player pot st inv m2 (acts, childs, added, m4))
    (hstk : chipTol ≤ pget st player) :
    NodeGood pot st inv n
      (TreeNode.action n player pot st (a0 :: acts) (c :: childs), m4) := by
  obtain ⟨k1, k2, k3, k4, k5, k6, k7⟩ := hacc
  dsimp only at k1 k2 k3 k4 k5 k6 k7
  refine ⟨by omega, ?_, rfl, rfl, ?_, ?_, ?_⟩
  · exact preorder_action_ids n m4 player pot st _ _ (by omega)
      (preorderIdsList_cons_glue c childs (n + 1) m2 m4 hcn k1 hcids k3)
  · simp only [edgesOk, edgesOkList]
    refine ⟨?_, hcok, k5⟩
    intro pr hpr
    rw [List.zip_cons_cons, List.mem_cons] at hpr
    rcases hpr with rfl | hpr
    · exact hcedge
    · exact k4 pr hpr
  · intro sp hsp
    simp only [terminalsOk, terminalsOkList]
    exact ⟨hcterm sp hsp, k6 sp hsp⟩
  · simp only [actionStacksOk, actionStacksOkList]
    exact ⟨hstk, hcstk, k7⟩

/-- Assembling an action node from two leading terminal children plus the
loop accumulator preserves the invariant bundle. -/
lemma nodeGood_assemble2 (player : Player) (pot : ℚ) (st inv : ℚ × ℚ) (n : Nat)
    (c1 c2 : TreeNode) (acts : List Action) (childs : List TreeNode)
    (added : Bool) (m4 : Nat) (a1 a2 : Action)
    (hc1ids : preorderIds c1 = [])
    (hc2ids : preorderIds c2 = [])
    (hedge1 : edgeOkPair player pot st (a1, c1))
    (hedge2 : edgeOkPair player pot st (a2, c2))
    (hok1 : edgesOk c1) (hok2 : edgesOk c2)
    (hterm1 : ∀ sp, pot = sp + inv.1 + inv.2 → terminalsOk sp c1)
    (hterm2 : ∀ sp, pot = sp + inv.1 + inv.2 → terminalsOk sp c2)
    (hstk1 : actionStacksOk c1) (hstk2 : actionStacksOk c2)
    (hacc : AccInv player pot st inv (n + 1) (acts, childs, added, m4))
    (hstk : chipTol ≤ pget st player) :
    NodeGood pot st inv n
      (TreeNode.action n player pot st (a1 :: a2 :: acts) (c1 :: c2 :: childs), m4) := by
  obtain ⟨k1, k2, k3, k4, k5, k6, k7⟩ := hacc
  dsimp only at k1 k2 k3 k4 k5 k6 k7
  refine ⟨by omega, ?_, rfl, rfl, ?_, ?_, ?_⟩
  · refine preorder_action_ids n m4 player pot st _ _ (by omega) ?_
    have h2 : preorderIdsList (c2 :: childs) = List.range' (n + 1) (m4 - (n + 1)) :=
      preorderIdsList_cons_glue c2 childs (n + 1) (n + 1) m4 (le_refl _) k1
        (by simpa using hc2ids) k3
    exact preorderIdsList_cons_glue c1 (c2 :: childs) (n + 1) (n + 1) m4 (le_refl _)
      (by omega) (by simpa using hc1ids) h2
  · simp only [edgesOk, edgesOkList]
    refine ⟨?_, hok1, hok2, k5⟩
    intro pr hpr
    rw [List.zip_cons_cons, List.mem_cons] at hpr
    rcases hpr with rfl | hpr
    · exact hedge1
    · rw [List.zip_cons_cons, List.mem_cons] at hpr
      rcases hpr with rfl | hpr
      · exact hedge2
      · exact k4 pr hpr
  · intro sp hsp
    simp only [terminalsOk, terminalsOkList]
    exact ⟨hterm1 sp hsp, hterm2 sp hsp, k6 sp hsp⟩
  · simp only [actionStacksOk, actionStacksOkList]
    exact ⟨hstk, hstk1, hstk2, k7⟩

/-- `build_open_action` satisfies the invariant bundle whenever its
recursive callback does and the actor has the tolerance behind. -/
lemma buildOpenAction_good (config : TreeConfig) (go : Builder) (player : Player)
    (pot : ℚ) (st inv : ℚ × ℚ) (raises : Nat) (icb : Bool) (n : Nat)
    (hgo : GoodBuild go) (hstk : chipTol ≤ pget st player) :
    NodeGood pot st inv n (buildOpenAction config go player pot st inv raises icb n) := by
  unfold buildOpenAction
  dsimp only
  set cres := (if icb = true then (TreeNode.terminal TerminalType.showdown pot st inv, n + 1)
      else go Player.IP pot st inv raises false 0 true (n + 1)) with hcres
  set bres := List.foldl (betStep go player pot st inv raises) ([], [], false, cres.2)
      config.betSizes with hbres
  have hc : NodeGood pot st inv (n + 1) cres := by
    rw [hcres]
    by_cases h : icb = true
    · simpa [h] using nodeGood_terminal TerminalType.showdown pot st inv (n + 1)
    · simpa [h] using hgo Player.IP pot st inv raises false 0 true (n + 1)
  obtain ⟨h1, h2, h3, h4, h5, h6, h7⟩ := hc
  have hacc0 : AccInv player pot st inv cres.2 (bres.1, bres.2.1, bres.2.2.1, bres.2.2.2) := by
    rw [hbres]
    exact foldl_preserve _ _
      (fun a b hpa => betStep_inv go hgo player pot st inv raises cres.2 a b hpa)
      config.betSizes ([], [], false, cres.2) (accInv_init player pot st inv cres.2)
  have hedgeCheck : edgeOkPair player pot st (Action.check, cres.1) := by
    intro amt hamt
    simp only [contribution, Option.some.injEq] at hamt
    subst hamt
    exact ⟨by rw [h3, add_zero], by rw [h4, sub_zero], by rw [h4]⟩
  by_cases hall : config.addAllin = true ∧ bres.2.2.1 = false ∧ chipTol < pget st player ∧
      config.betSizes ≠ [] ∧ pot * (1 / 5) < pget st player
  · simp only [if_pos hall]
    exact nodeGood_assemble player pot st inv n cres.1 cres.2 _ _ true _ Action.check
      h1 h2 hedgeCheck h5 h6 h7
      (accInv_append player pot st inv cres.2 bres.1 bres.2.1 bres.2.2.1 true bres.2.2.2
        go hgo (Action.bet (pget st player)) (pget st player) rfl raises true
        (pget st player) false hacc0)
      hstk
  · simp only [if_neg hall]
    exact nodeGood_assemble player pot st inv n cres.1 cres.2 _ _ bres.2.2.1 _ Action.check
      h1 h2 hedgeCheck h5 h6 h7 hacc0 hstk

/-- `build_facing_bet` satisfies the invariant bundle whenever its
recursive callback does and the actor has the tolerance behind. -/
lemma buildFacingBet_good (config : TreeConfig) (go : Builder) (player : Player)
    (pot : ℚ) (st inv : ℚ × ℚ) (raises : Nat) (amountToCall : ℚ) (n : Nat)
    (hgo : GoodBuild go) (hstk : chipTol ≤ pget st player) :
    NodeGood pot st inv n
      (buildFacingBet config go player pot st inv raises amountToCall n) := by
  unfold buildFacingBet
  dsimp only
  set ca := min amountToCall (pget st player) with hca
  set lres := List.foldl
      (raiseStep go player pot st inv raises ca (pget st player) (pget st player - ca)
        (pot + ca)) ([], [], false, n + 1) config.raiseSizes with hlres
  have hedgeF : edgeOkPair player pot st
      (Action.fold, TreeNode.terminal (TerminalType.fold player) pot st inv) := by
    intro amt hamt
    simp [contribution] at hamt
  have hedgeC : edgeOkPair player pot st
      (Action.call ca, TreeNode.terminal TerminalType.showdown (pot + ca)
        (pset st player (pget st player - ca))
        (pset inv player (pget inv player + ca))) := by
    intro amt hamt
    simp only [contribution, Option.some.injEq] at hamt
    subst hamt
    exact ⟨rfl, by rw [nodeStacks, pget_pset_same], by rw [nodeStacks, pget_pset_opp]⟩
  have htermF : ∀ sp, pot = sp + inv.1 + inv.2 →
      terminalsOk sp (TreeNode.terminal (TerminalType.fold player) pot st inv) := by
    intro sp hsp
    simpa [terminalsOk] using hsp
  have htermC : ∀ sp, pot = sp + inv.1 + inv.2 →
      terminalsOk sp (TreeNode.terminal TerminalType.showdown (pot + ca)
        (pset st player (pget st player - ca))
        (pset inv player (pget inv player + ca))) := by
    intro sp hsp
    have hps := pset_add_sum inv player ca
    simp only [terminalsOk]
    rw [hsp]
    linarith
  have hacc0 : AccInv player pot st inv (n + 1) (lres.1, lres.2.1, lres.2.2.1, lres.2.2.2) := by
    rw [hlres]
    exact foldl_preserve _ _
      (fun a b hpa => raiseStep_inv go hgo player pot st inv raises ca (pget st player)
        (pget st player - ca) (pot + ca) (n + 1) a b hpa)
      config.raiseSizes ([], [], false, n + 1) (accInv_init player pot st inv (n + 1))
  by_cases hr : raises < config.maxRaises ∧ chipTol < pget st player - ca
  · simp only [if_pos hr]
    by_cases hai : config.addAllin = true ∧ lres.2.2.1 = false ∧
        chipTol < pget st player - ca
    · simp only [if_pos hai]
      have hzero : pset st player 0 = pset st player (pget st player - pget st player) := by
        rw [sub_self]
      rw [hzero]
      exact nodeGood_assemble2 player pot st inv n _ _ _ _ true _ Action.fold
        (Action.call ca) (by simp [preorderIds]) (by simp [preorderIds]) hedgeF hedgeC
        (by simp [edgesOk]) (by simp [edgesOk]) htermF htermC
        (by simp [actionStacksOk]) (by simp [actionStacksOk])
        (accInv_append player pot st inv (n + 1) lres.1 lres.2.1 lres.2.2.1 true
          lres.2.2.2 go hgo (Action.raise (pget st player)) (pget st player) rfl
          (raises + 1) true (pget st player - ca) false hacc0)
        hstk
    · simp only [if_neg hai]
      exact nodeGood_assemble2 player pot st inv n _ _ _ _ lres.2.2.1 _ Action.fold
        (Action.call ca) (by simp [preorderIds]) (by simp [preorderIds]) hedgeF hedgeC
        (by simp [edgesOk]) (by simp [edgesOk]) htermF htermC
        (by simp [actionStacksOk]) (by simp [actionStacksOk]) hacc0 hstk
  · simp only [if_neg hr]
    exact nodeGood_assemble2 player pot st inv n _ _ _ _ false _ Action.fold
      (Action.call ca) (by simp [preorderIds]) (by simp [preorderIds]) hedgeF hedgeC
      (by simp [edgesOk]) (by simp [edgesOk]) htermF htermC
      (by simp [actionStacksOk]) (by simp [actionStacksOk])
      (accInv_init player pot st inv (n + 1)) hstk

/-- Every fuel instantiation of `build_node` satisfies the invariant
bundle. -/
lemma buildNode_good (config : TreeConfig) : ∀ fuel, GoodBuild (buildNode config fuel) := by
  intro fuel
  induction fuel with
  | zero =>
      intro p pot st inv r fb atc oc n
      exact nodeGood_terminal TerminalType.showdown pot st inv n
  | succ fuel ih =>
      intro p pot st inv r fb atc oc n
      unfold buildNode
      dsimp only
      by_cases hs : pget st p < chipTol
      · rw [if_pos hs]
        exact nodeGood_terminal TerminalType.showdown pot st inv n
      · rw [if_neg hs]
        cases fb with
        | true =>
            rw [if_pos rfl]
            exact buildFacingBet_good config _ p pot st inv r atc n ih (not_lt.1 hs)
        | false =>
            rw [if_neg (by simp)]
            by_cases hio : p = Player.IP ∧ oc = true
            · rw [if_pos hio]
              exact buildOpenAction_good config _ p pot st inv r true n ih (not_lt.1 hs)
            · rw [if_neg hio]
              by_cases hoo : p = Player.OOP
              · rw [if_pos hoo]
                exact buildOpenAction_good config _ p pot st inv r false n ih (not_lt.1 hs)
              · rw [if_neg hoo]
                exact nodeGood_terminal TerminalType.showdown pot st inv n

/-- C5: for every configuration, the pre-order listing of action-node ids
of the built tree is exactly `0, 1, …, N−1` where `N` is the returned
action-node count — so ids are contiguous, unrepeated and unskipped, each
action node receives the next id before any node in its subtree, and
terminal nodes carry none. -/
theorem buildTree_ids_contiguous_preorder (config : TreeConfig) :
    preorderIds (buildTree config).1 = List.range (buildTree config).2 := by
  obtain ⟨h1, h2, h3, h4, h5, h6, h7⟩ :=
    buildNode_good config (buildFuel config) Player.OOP config.startingPot
      (config.effectiveStack, config.effectiveStack) (0, 0) 0 false 0 false 0
  rw [List.range_eq_range']
  simpa [buildTree] using h2

/-- C6: in every built tree, along every non-fold edge the actor's
contribution is added to the pot and subtracted from the actor's stack
while the other player's stack is unchanged (the invested vector is
carried by the builder and recorded only at terminals), and consequently
every terminal node satisfies pot = starting_pot + invested[0] +
invested[1]. -/
theorem buildTree_edge_and_terminal_invariants (config : TreeConfig) :
    edgesOk (buildTree config).1 ∧
    terminalsOk config.startingPot (buildTree config).1 := by
  obtain ⟨h1, h2, h3, h4, h5, h6, h7⟩ :=
    buildNode_good config (buildFuel config) Player.OOP config.startingPot
      (config.effectiveStack, config.effectiveStack) (0, 0) 0 false 0 false 0
  exact ⟨h5, h6 config.startingPot (by simp)⟩

/-- C10: a builder invocation for an acting player with less than the
0.01-chip tolerance behind yields a Showdown terminal instead of an action
node, and consequently in every built tree the acting player of every
action node has at least 0.01 chips behind. -/
theorem buildNode_low_stack_showdown_and_tree_guard :
    (∀ (config : TreeConfig) (fuel : Nat) (p : Player) (pot : ℚ) (st inv : ℚ × ℚ)
        (r : Nat) (fb : Bool) (atc : ℚ) (oc : Bool) (n : Nat),
        pget st p < chipTol →
        buildNode config fuel p pot st inv r fb atc oc n
          = (TreeNode.terminal TerminalType.showdown pot st inv, n)) ∧
    ∀ config : TreeConfig, actionStacksOk (buildTree config).1 := by
  constructor
  · intro config fuel p pot st inv r fb atc oc n h
    cases fuel with
    | zero => rfl
    | succ fuel =>
        unfold buildNode
        dsimp only
        rw [if_pos h]
  · intro config
    obtain ⟨h1, h2, h3, h4, h5, h6, h7⟩ :=
      buildNode_good config (buildFuel config) Player.OOP config.startingPot
        (config.effectiveStack, config.effectiveStack) (0, 0) 0 false 0 false 0
    exact h7

/-- Witness for `buildNode_low_stack_showdown_and_tree_guard` at a concrete
configuration: a broke acting player (stacks zero) collapses to a Showdown
terminal, and the default-river-style tree satisfies the stack guard. -/
theorem buildNode_low_stack_showdown_witness :
    buildNode ⟨[1], [1], 3, 10, 20, true⟩ 5 Player.OOP 10 (0, 0) (0, 0) 0 false 0 false 0
      = (TreeNode.terminal TerminalType.showdown 10 (0, 0) (0, 0), 0) ∧
    actionStacksOk (buildTree ⟨[1], [1], 3, 10, 20, true⟩).1 :=
  ⟨buildNode_low_stack_showdown_and_tree_guard.1 ⟨[1], [1], 3, 10, 20, true⟩ 5 Player.OOP
      10 (0, 0) (0, 0) 0 false 0 false 0 (by norm_num [pget, chipTol]),
   buildNode_low_stack_showdown_and_tree_guard.2 ⟨[1], [1], 3, 10, 20, true⟩⟩

/-- If every configured bet clamps either to exactly all-in or to at least
0.01 below all-in, the bet loop leaves the all-in bet in the action list
whenever it marks `added_allin`. -/
lemma betStep_allin_invariant (go : Builder) (player : Player) (pot : ℚ)
    (st inv : ℚ × ℚ) (raises : Nat) (frac : ℚ)
    (acc : List Action × List TreeNode × Bool × Nat)
    (hfrac : pget st player ≤ pot * frac ∨ pot * frac ≤ pget st player - chipTol)
    (h : acc.2.2.1 = true → Action.bet (pget st player) ∈ acc.1) :
    (betStep go player pot st inv raises acc frac).2.2.1 = true →
      Action.bet (pget st player) ∈ (betStep go player pot st inv raises acc frac).1 := by
  obtain ⟨actions, children, added, nid⟩ := acc
  dsimp only at h
  unfold betStep
  dsimp only
  by_cases hb : min (pot * frac) (pget st player) < chipTol
  · rw [if_pos hb]
    exact h
  · rw [if_neg hb]
    by_cases hskip : added = true ∧
        |min (pot * frac) (pget st player) - pget st player| < chipTol
    · rw [if_pos hskip]
      exact h
    · rw [if_neg hskip]
      dsimp only
      by_cases hclose : |min (pot * frac) (pget st player) - pget st player| < chipTol
      · intro _
        have hbet : min (pot * frac) (pget st player) = pget st player := by
          rcases hfrac with hge | hle
          · exact min_eq_right hge
          · exfalso
            have hct : (0 : ℚ) < chipTol := by norm_num [chipTol]
            have hmin : min (pot * frac) (pget st player) = pot * frac :=
              min_eq_left (by linarith)
            rw [hmin] at hclose
            have habs := abs_lt.1 hclose
            have : (0 : ℚ) < chipTol := by norm_num [chipTol]
            linarith [habs.1]
        rw [hbet]
        exact List.mem_append_right _ (List.mem_singleton.2 rfl)
      · rw [if_neg hclose]
        intro hadded
        exact List.mem_append_left _ (h hadded)

/-- The all-in invariant across the whole bet loop. -/
lemma foldl_betStep_allin (go : Builder) (player : Player) (pot : ℚ)
    (st inv : ℚ × ℚ) (raises : Nat) (l : List ℚ)
    (hl : ∀ frac ∈ l, pget st player ≤ pot * frac ∨
        pot * frac ≤ pget st player - chipTol) :
    ∀ acc, (acc.2.2.1 = true → Action.bet (pget st player) ∈ acc.1) →
      ((List.foldl (betStep go player pot st inv raises) acc l).2.2.1 = true →
        Action.bet (pget st player) ∈
          (List.foldl (betStep go player pot st inv raises) acc l).1) := by
  induction l with
  | nil =>
      intro acc h
      simpa using h
  | cons frac rest ih =>
      intro acc h
      rw [List.foldl_cons]
      exact ih (fun f hf => hl f (List.mem_cons_of_mem _ hf)) _
        (betStep_allin_invariant go player pot st inv raises frac acc
          (hl frac (List.mem_cons_self _ _)) h)

/-- C8 (amended): with `add_allin` set and a nonempty bet-size list, an
open-action node contains the explicit all-in bet of the actor's full
remaining stack whenever the stack exceeds both the 0.01 tolerance and 20%
of the pre-bet pot, provided every configured bet clamps either to exactly
all-in or to at least the 0.01 tolerance below it — a configured bet
landing within (0, 0.01) of the stack is marked as the all-in and
suppresses the explicit full-stack action. -/
theorem buildOpenAction_allin_amended (config : TreeConfig) (go : Builder)
    (player : Player) (pot : ℚ) (st inv : ℚ × ℚ) (raises : Nat) (icb : Bool) (n : Nat)
    (hadd : config.addAllin = true)
    (hne : config.betSizes ≠ [])
    (hrem : chipTol < pget st player)
    (hpot : pot * (1 / 5) < pget st player)
    (hgap : ∀ frac ∈ config.betSizes,
        pget st player ≤ pot * frac ∨ pot * frac ≤ pget st player - chipTol) :
    Action.bet (pget st player) ∈
      actionsOf (buildOpenAction config go player pot st inv raises icb n).1 := by
  unfold buildOpenAction
  dsimp only
  set cres := (if icb = true then (TreeNode.terminal TerminalType.showdown pot st inv, n + 1)
      else go Player.IP pot st inv raises false 0 true (n + 1)) with hcres
  set bres := List.foldl (betStep go player pot st inv raises) ([], [], false, cres.2)
      config.betSizes with hbres
  have hinv : bres.2.2.1 = true → Action.bet (pget st player) ∈ bres.1 := by
    rw [hbres]
    exact foldl_betStep_allin go player pot st inv raises config.betSizes hgap
      ([], [], false, cres.2) (by intro h; cases h)
  by_cases hall : config.addAllin = true ∧ bres.2.2.1 = false ∧ chipTol < pget st player ∧
      config.betSizes ≠ [] ∧ pot * (1 / 5) < pget st player
  · rw [if_pos hall]
    simp only [actionsOf]
    exact List.mem_cons_of_mem _
      (List.mem_append_right _ (List.mem_singleton.2 rfl))
  · rw [if_neg hall]
    simp only [actionsOf]
    cases hbool : bres.2.2.1 with
    | false => exact absurd ⟨hadd, hbool, hrem, hne, hpot⟩ hall
    | true => exact List.mem_cons_of_mem _ (hinv hbool)

/-- Witness for `buildOpenAction_allin_amended`: with bet size 100% of a
10-chip pot and a 30-chip stack, the open node contains the explicit
all-in `Bet 30`. -/
theorem buildOpenAction_allin_amended_witness :
    Action.bet 30 ∈ actionsOf (buildOpenAction ⟨[1], [1], 3, 10, 30, true⟩
      (buildNode ⟨[1], [1], 3, 10, 30, true⟩ 3) Player.OOP 10 (30, 30) (0, 0) 0 false 0).1 :=
  buildOpenAction_allin_amended ⟨[1], [1], 3, 10, 30, true⟩
    (buildNode ⟨[1], [1], 3, 10, 30, true⟩ 3) Player.OOP 10 (30, 30) (0, 0) 0 false 0
    rfl (by simp) (by norm_num [pget, chipTol]) (by norm_num [pget])
    (by
      intro frac hf
      rw [List.mem_singleton] at hf
      subst hf
      right
      norm_num [pget, chipTol])

/-- C8 counterexample to the claim as frozen: bet size 100% of a 10-chip
pot with a stack of 10.005 chips.  The stack exceeds the last configured
bet (10) by a positive margin and the all-in (10.005) far exceeds 20% of
the pot, yet the node's actions are exactly Check and Bet 10 — the clamped
bet lands within the 0.01 tolerance of all-in, is marked as the all-in,
and no explicit `Bet 10.005` of the full remaining stack is added. -/
theorem buildOpenAction_allin_tolerance_counterexample :
    actionsOf (buildOpenAction ⟨[1], [1], 3, 10, 2001 / 200, true⟩
        (buildNode ⟨[1], [1], 3, 10, 2001 / 200, true⟩ 3) Player.OOP 10
        (2001 / 200, 2001 / 200) (0, 0) 0 false 0).1
      = [Action.check, Action.bet 10] ∧
    (10 : ℚ) < 2001 / 200 ∧ 10 * (1 / 5) < (2001 : ℚ) / 200 ∧
    Action.bet ((2001 : ℚ) / 200) ∉ [Action.check, Action.bet 10] := by
  refine ⟨?_, by norm_num, by norm_num, ?_⟩
  · unfold buildOpenAction
    dsimp only
    norm_num [betStep, pget, pset, chipTol, abs_sub_lt_iff, min_def, actionsOf]
    rw [show |(1 : ℚ) / 200| = 1 / 200 from abs_of_pos (by norm_num)]
    norm_num
  · intro hmem
    rw [List.mem_cons, List.mem_singleton] at hmem
    rcases hmem with h | h
    · cases h
    · rw [Action.bet.injEq] at h
      norm_num at h

/-- Traversing a forest of terminals leaves the trainer untouched. -/
lemma cfrTraverseKids_terminals_trainer (traverser : Player) (handIdx : Nat)
    (oppReach : List ℚ) (showdown : ShowdownTable)
    (oppSnapshot : Nat → Option (List (List ℚ))) :
    ∀ (children : List TreeNode) (trainer : Trainer),
      (∀ c ∈ children, c.isTerminal = true) →
      (cfrTraverseKids children traverser handIdx oppReach showdown oppSnapshot
        trainer).2 = trainer := by
  intro children
  induction children with
  | nil =>
      intro trainer _
      rfl
  | cons c rest ih =>
      intro trainer hterm
      cases c with
      | action nid pl pot stx acts childs =>
          exact absurd (hterm _ (List.mem_cons_self _ _)) (by simp [TreeNode.isTerminal])
      | terminal tt pot stx inv =>
          rw [cfrTraverseKids]
          dsimp only
          rw [cfrTraverse]
          exact ih trainer (fun x hx => hterm x (List.mem_cons_of_mem _ hx))

/-- The current strategy of a freshly created info set is uniform. -/
lemma currentStrategy_new (n : Nat) :
    (InfoSetData.new n).currentStrategy = List.replicate n (1 / (n : ℚ)) := by
  unfold InfoSetData.currentStrategy InfoSetData.new
  simp [List.map_replicate]

/-- At a traverser-owned action node with terminal children and a fresh
key, the traversal stores exactly the freshly-updated info set. -/
lemma cfrTraverse_fresh_store (nid h : Nat) (tv : Player) (pot : ℚ) (st : ℚ × ℚ)
    (actions : List Action) (children : List TreeNode) (r : List ℚ)
    (sd : ShowdownTable) (snap : Nat → Option (List (List ℚ))) (t : Trainer)
    (hterm : ∀ c ∈ children, c.isTerminal = true)
    (ht : t ⟨h, nid⟩ = none) :
    ((cfrTraverse (TreeNode.action nid tv pot st actions children) tv h r sd snap
        t).2) ⟨h, nid⟩
      = some ((InfoSetData.new actions.length).update
          (cfrTraverseKids children tv h r sd snap t).1
          (((t.getStrategy ⟨h, nid⟩ actions.length).zip
            (cfrTraverseKids children tv h r sd snap t).1).map (fun p => p.1 * p.2)).sum
          (reachWeight r)) := by
  unfold cfrTraverse
  rw [if_pos rfl]
  dsimp only
  rw [cfrTraverseKids_terminals_trainer tv h r sd snap children t hterm]
  unfold Trainer.insert
  rw [if_pos rfl, ht]
  simp only [Option.getD_none]

/-- Strategy-accumulator entry written by an update of a fresh info set:
the weight times the uniform strategy. -/
lemma update_new_strategy_entry (k : Nat) (vals : List ℚ) (nv w : ℚ) (a : Nat)
    (ha : a < k) :
    ((InfoSetData.new k).update vals nv w).cumulativeStrategy.getD a 0
      = w * (1 / (k : ℚ)) := by
  unfold InfoSetData.update
  dsimp only
  simp only [currentStrategy_new]
  dsimp only [InfoSetData.new]
  rw [getD_map_range _ a ha, getD_replicate _ _ _ ha, getD_replicate _ _ _ ha, zero_add]

/-- C4 (amended): at a traverser-owned action node the weight applied to
the strategy accumulator is the {0,1} indicator of the opponent reach sum
being positive — not the scalar sum itself — and in particular zero when
the sum is zero.  Observably: traversing such a node with terminal
children and a fresh key stores `indicator(Σr > 0) · 1/k` in every
cumulative-strategy slot. -/
theorem cfrTraverse_strategy_weight_indicator (nid h : Nat) (tv : Player) (pot : ℚ)
    (st : ℚ × ℚ) (actions : List Action) (children : List TreeNode) (r : List ℚ)
    (sd : ShowdownTable) (snap : Nat → Option (List (List ℚ))) (t : Trainer)
    (hterm : ∀ c ∈ children, c.isTerminal = true)
    (ht : t ⟨h, nid⟩ = none) :
    ∃ d, ((cfrTraverse (TreeNode.action nid tv pot st actions children) tv h r sd snap
        t).2) ⟨h, nid⟩ = some d ∧
      ∀ a, a < actions.length →
        d.cumulativeStrategy.getD a 0
          = (if 0 < r.sum then 1 else 0) * (1 / (actions.length : ℚ)) :=
  ⟨_, cfrTraverse_fresh_store nid h tv pot st actions children r sd snap t hterm ht,
   fun a ha => by
     rw [update_new_strategy_entry _ _ _ _ a ha]
     unfold reachWeight
     rfl⟩

/-- Witness for `cfrTraverse_strategy_weight_indicator` at a concrete
two-action node with showdown children and reach vector `[1, 1]`. -/
theorem cfrTraverse_strategy_weight_indicator_witness :
    ∃ d, ((cfrTraverse (TreeNode.action 0 Player.OOP 10 (20, 20)
        [Action.check, Action.bet 5]
        [TreeNode.terminal TerminalType.showdown 10 (20, 20) (0, 0),
         TreeNode.terminal TerminalType.showdown 10 (20, 20) (0, 0)]) Player.OOP 0
        [1, 1] ⟨[], [], [], [], [], []⟩ (fun _ => none) Trainer.new).2 ⟨0, 0⟩)
        = some d ∧
      ∀ a, a < ([Action.check, Action.bet 5] : List Action).length →
        d.cumulativeStrategy.getD a 0
          = (if 0 < ([1, 1] : List ℚ).sum then 1 else 0) *
            (1 / (([Action.check, Action.bet 5] : List Action).length : ℚ)) :=
  cfrTraverse_strategy_weight_indicator 0 0 Player.OOP 10 (20, 20)
    [Action.check, Action.bet 5]
    [TreeNode.terminal TerminalType.showdown 10 (20, 20) (0, 0),
     TreeNode.terminal TerminalType.showdown 10 (20, 20) (0, 0)]
    [1, 1] ⟨[], [], [], [], [], []⟩ (fun _ => none) Trainer.new
    (by
      intro c hc
      rw [List.mem_cons, List.mem_singleton] at hc
      rcases hc with rfl | rfl <;> rfl)
    rfl

/-- C4 counterexample to the claim as frozen: with opponent reach `[1, 1]`
(scalar sum 2) over a fresh two-action traverser node, the stored
cumulative-strategy entry is `1 · σ_a = 1/2`, not the claimed
`(Σ r) · σ_a = 2 · 1/2 = 1`. -/
theorem cfrTraverse_strategy_weight_counterexample :
    ∃ d, ((cfrTraverse (TreeNode.action 0 Player.OOP 10 (20, 20)
        [Action.check, Action.bet 5]
        [TreeNode.terminal TerminalType.showdown 10 (20, 20) (0, 0),
         TreeNode.terminal TerminalType.showdown 10 (20, 20) (0, 0)]) Player.OOP 0
        [1, 1] ⟨[], [], [], [], [], []⟩ (fun _ => none) Trainer.new).2 ⟨0, 0⟩)
        = some d ∧
      d.cumulativeStrategy.getD 0 0 = 1 / 2 ∧
      ([1, 1] : List ℚ).sum *
        (Trainer.getStrategy Trainer.new ⟨0, 0⟩ 2).getD 0 0 ≠ 1 / 2 := by
  refine ⟨_, cfrTraverse_fresh_store 0 0 Player.OOP 10 (20, 20)
      [Action.check, Action.bet 5]
      [TreeNode.terminal TerminalType.showdown 10 (20, 20) (0, 0),
       TreeNode.terminal TerminalType.showdown 10 (20, 20) (0, 0)]
      [1, 1] ⟨[], [], [], [], [], []⟩ (fun _ => none) Trainer.new
      (by
        intro c hc
        rw [List.mem_cons, List.mem_singleton] at hc
        rcases hc with rfl | rfl <;> rfl)
      rfl, ?_, ?_⟩
  · rw [update_new_strategy_entry _ _ _ _ 0 (by norm_num)]
    unfold reachWeight
    norm_num
  · unfold Trainer.getStrategy Trainer.new
    norm_num [List.replicate]

/-- The fold initial value bounds the fold of `max`. -/
lemma le_foldl_max_init (ys : List ℚ) : ∀ y, y ≤ ys.foldl max y := by
  induction ys with
  | nil => intro y; exact le_refl y
  | cons z ys ih =>
      intro y
      rw [List.foldl_cons]
      exact le_trans (le_max_left y z) (ih (max y z))

/-- Every member bounds below the fold of `max`. -/
lemma mem_le_foldl_max (ys : List ℚ) : ∀ y x, x ∈ ys → x ≤ ys.foldl max y := by
  induction ys with
  | nil => intro y x hx; cases hx
  | cons z ys ih =>
      intro y x hx
      rw [List.foldl_cons]
      rcases List.mem_cons.1 hx with rfl | hx
      · exact le_trans (le_max_right y x) (le_foldl_max_init ys (max y x))
      · exact ih (max y z) x hx

/-- Every member of a list is at most its `max?` (read with default 0). -/
lemma mem_le_maxD (l : List ℚ) (x : ℚ) (hx : x ∈ l) : x ≤ l.max?.getD 0 := by
  cases l with
  | nil => cases hx
  | cons y ys =>
      show x ≤ (ys.foldl max y)
      rcases List.mem_cons.1 hx with rfl | hx
      · exact le_foldl_max_init ys x
      · exact mem_le_foldl_max ys y x hx

/-- Dividing a list elementwise divides its sum. -/
lemma list_sum_map_div (l : List ℚ) (c : ℚ) :
    (l.map (fun x => x / c)).sum = l.sum / c := by
  induction l with
  | nil => simp
  | cons x xs ih => simp [ih, add_div]

/-- Reading a nonnegative list anywhere (default 0) is nonnegative. -/
lemma getD_nonneg (l : List ℚ) (a : Nat) (h : ∀ x ∈ l, 0 ≤ x) : 0 ≤ l.getD a 0 := by
  by_cases ha : a < l.length
  · rw [List.getD_eq_getElem?_getD, List.getElem?_eq_getElem ha]
    exact h _ (List.getElem_mem ha)
  · rw [List.getD_eq_getElem?_getD, List.getElem?_eq_none (not_lt.1 ha)]
    exact le_refl 0

/-- `get_average_strategy` returns a probability distribution of the
requested length whenever any stored entry at the key is consistent with
it (nonnegative accumulators of that length). -/
lemma getAverageStrategy_dist (t : Trainer) (key : InfoSetKey) (k : Nat) (hk : 0 < k)
    (hcons : ∀ d, t key = some d → d.numActions = k ∧
      d.cumulativeStrategy.length = k ∧ ∀ x ∈ d.cumulativeStrategy, 0 ≤ x) :
    (t.getAverageStrategy key k).length = k ∧
    (∀ x ∈ t.getAverageStrategy key k, 0 ≤ x) ∧
    (t.getAverageStrategy key k).sum = 1 := by
  have hkQ : ((k : ℚ)) ≠ 0 := by
    exact_mod_cast Nat.pos_iff_ne_zero.1 hk
  unfold Trainer.getAverageStrategy
  cases hky : t key with
  | none =>
      refine ⟨by simp, ?_, ?_⟩
      · intro x hx
        rw [List.eq_of_mem_replicate hx]
        positivity
      · rw [List.sum_replicate, nsmul_eq_mul]
        field_simp
  | some d =>
      obtain ⟨hn, hlen, hpos⟩ := hcons d hky
      unfold InfoSetData.averageStrategy
      dsimp only
      by_cases hsum : 0 < d.cumulativeStrategy.sum
      · rw [if_pos hsum]
        refine ⟨by simpa using hlen, ?_, ?_⟩
        · intro x hx
          rcases List.mem_map.1 hx with ⟨y, hy, rfl⟩
          exact div_nonneg (hpos y hy) (le_of_lt hsum)
        · rw [list_sum_map_div]
          exact div_self (ne_of_gt hsum)
      · rw [if_neg hsum, hn]
        refine ⟨by simp, ?_, ?_⟩
        · intro x hx
          rw [List.eq_of_mem_replicate hx]
          positivity
        · rw [List.sum_replicate, nsmul_eq_mul]
          field_simp

/-- A weight-by-`avg` sum of child values is at most the total weight
times any common upper bound of the values. -/
lemma avgOwnSum_le (children : List TreeNode) (p : Player) (h : Nat) (r : List ℚ)
    (sd : ShowdownTable) (t : Trainer) (avg : List ℚ) (M : ℚ)
    (hw : ∀ x ∈ avg, 0 ≤ x)
    (hpoint : ∀ c ∈ children, avgStrategyTraverse c p h r sd t ≤ M) :
    ∀ a, avgOwnSum children a avg p h r sd t
      ≤ (∑ i ∈ Finset.range children.length, avg.getD (a + i) 0) * M := by
  induction children with
  | nil =>
      intro a
      simp [avgOwnSum]
  | cons c rest ih =>
      intro a
      rw [avgOwnSum]
      have hgoal : (∑ i ∈ Finset.range (c :: rest).length, avg.getD (a + i) 0)
          = avg.getD a 0 + ∑ i ∈ Finset.range rest.length, avg.getD (a + 1 + i) 0 := by
        rw [List.length_cons, Finset.sum_range_succ', add_comm]
        congr 1
        apply Finset.sum_congr rfl
        intro i _
        congr 1
        omega
      rw [hgoal, add_mul]
      have h1 : avg.getD a 0 * avgStrategyTraverse c p h r sd t ≤ avg.getD a 0 * M :=
        mul_le_mul_of_nonneg_left (hpoint c (List.mem_cons_self _ _)) (getD_nonneg avg a hw)
      have h2 := ih (fun c2 hc2 => hpoint c2 (List.mem_cons_of_mem _ hc2)) (a + 1)
      linarith

/-- Componentwise comparison of the opponent-node sums. -/
lemma avgOppSum_le_brOppSum (children : List TreeNode) (nid k : Nat) (p : Player)
    (h : Nat) (r : List ℚ) (sd : ShowdownTable) (t : Trainer)
    (hpoint : ∀ c ∈ children, ∀ r2 : List ℚ,
      avgStrategyTraverse c p h r2 sd t ≤ brTraverse c p h r2 sd t) :
    ∀ a, avgOppSum children a nid k p h r sd t ≤ brOppSum children a nid k p h r sd t := by
  induction children with
  | nil =>
      intro a
      rw [avgOppSum, brOppSum]
  | cons c rest ih =>
      intro a
      rw [avgOppSum, brOppSum]
      have h1 := hpoint c (List.mem_cons_self _ _) (avgActionReach r nid k t a)
      have h2 := ih (fun c2 hc2 => hpoint c2 (List.mem_cons_of_mem _ hc2)) (a + 1)
      linarith

/-- The `brKidsVals` list is the map of `brTraverse` over the forest. -/
lemma brKidsVals_eq_map (children : List TreeNode) (p : Player) (h : Nat)
    (r : List ℚ) (sd : ShowdownTable) (t : Trainer) :
    brKidsVals children p h r sd t = children.map (fun c => brTraverse c p h r sd t) := by
  induction children with
  | nil => rfl
  | cons c rest ih =>
      rw [brKidsVals, List.map_cons, ih]

/-- Action counts of a member of a forest are among the forest's. -/
lemma mem_nodeActionCountsList (children : List TreeNode) (c : TreeNode)
    (hc : c ∈ children) (pr : Nat × Nat) (hpr : pr ∈ nodeActionCounts c) :
    pr ∈ nodeActionCountsList children := by
  induction children with
  | nil => cases hc
  | cons c0 rest ih =>
      rw [nodeActionCountsList, List.mem_append]
      rcases List.mem_cons.1 hc with rfl | hc
      · exact Or.inl hpr
      · exact Or.inr (ih hc)

mutual
/-- The average-strategy value never exceeds the best-response value:
at best-response-player nodes a probability-weighted sum is at most the
maximum, and elsewhere both traversals agree structurally. -/
lemma avg_le_br (node : TreeNode) (p : Player) (h : Nat) (r : List ℚ)
    (sd : ShowdownTable) (t : Trainer)
    (hwf : wfTree node)
    (hcons : ∀ pr ∈ nodeActionCounts node, ∀ (hb : Nat) (d : InfoSetData),
      t ⟨hb, pr.1⟩ = some d → d.numActions = pr.2 ∧
      d.cumulativeStrategy.length = pr.2 ∧ ∀ x ∈ d.cumulativeStrategy, 0 ≤ x) :
    avgStrategyTraverse node p h r sd t ≤ brTraverse node p h r sd t := by
  cases node with
  | terminal tt pot stx inv => exact le_refl _
  | action nid player pot stx actions children =>
      obtain ⟨hne, hlen, hfor⟩ := hwf
      have hpoint : ∀ c ∈ children, ∀ (h2 : Nat) (r2 : List ℚ),
          avgStrategyTraverse c p h2 r2 sd t ≤ brTraverse c p h2 r2 sd t :=
        avg_le_br_forest children p sd t hfor
          (fun pr hpr => hcons pr (List.mem_cons_of_mem _ hpr))
      rw [avgStrategyTraverse, brTraverse]
      by_cases hp : player = p
      · rw [if_pos hp, if_pos hp]
        have hk : 0 < actions.length := List.length_pos.2 hne
        obtain ⟨hdl, hdn, hds⟩ := getAverageStrategy_dist t ⟨h, nid⟩ actions.length hk
          (fun d hd => hcons (nid, actions.length) (List.mem_cons_self _ _) h d hd)
        have hub : ∀ c ∈ children,
            avgStrategyTraverse c p h r sd t
              ≤ (brKidsVals children p h r sd t).max?.getD 0 := by
          intro c hc
          refine le_trans (hpoint c hc h r) (mem_le_maxD _ _ ?_)
          rw [brKidsVals_eq_map]
          exact List.mem_map_of_mem _ hc
        have hbound := avgOwnSum_le children p h r sd t
          (t.getAverageStrategy ⟨h, nid⟩ actions.length)
          ((brKidsVals children p h r sd t).max?.getD 0) hdn hub 0
        have hw : (∑ i ∈ Finset.range children.length,
            (t.getAverageStrategy ⟨h, nid⟩ actions.length).getD (0 + i) 0) = 1 := by
          rw [hlen]
          calc ∑ i ∈ Finset.range actions.length,
                (t.getAverageStrategy ⟨h, nid⟩ actions.length).getD (0 + i) 0
              = ∑ i ∈ Finset.range actions.length,
                (t.getAverageStrategy ⟨h, nid⟩ actions.length).getD i 0 := by
                apply Finset.sum_congr rfl
                intro i _
                congr 1
                omega
            _ = (t.getAverageStrategy ⟨h, nid⟩ actions.length).sum :=
                (sum_eq_range_getD _ actions.length hdl).symm
            _ = 1 := hds
        rw [hw, one_mul] at hbound
        exact hbound
      · rw [if_neg hp, if_neg hp]
        exact avgOppSum_le_brOppSum children nid actions.length p h r sd t
          (fun c hc r2 => hpoint c hc h r2) 0

/-- `avg_le_br` across a forest, for every hand index and reach vector. -/
lemma avg_le_br_forest (children : List TreeNode) (p : Player)
    (sd : ShowdownTable) (t : Trainer)
    (hwf : wfForest children)
    (hcons : ∀ pr ∈ nodeActionCountsList children, ∀ (hb : Nat) (d : InfoSetData),
      t ⟨hb, pr.1⟩ = some d → d.numActions = pr.2 ∧
      d.cumulativeStrategy.length = pr.2 ∧ ∀ x ∈ d.cumulativeStrategy, 0 ≤ x) :
    ∀ c ∈ children, ∀ (h2 : Nat) (r2 : List ℚ),
      avgStrategyTraverse c p h2 r2 sd t ≤ brTraverse c p h2 r2 sd t := by
  cases children with
  | nil =>
      intro c hc
      cases hc
  | cons c0 rest =>
      obtain ⟨hwf0, hwfrest⟩ := hwf
      intro c hc h2 r2
      rcases List.mem_cons.1 hc with rfl | hc
      · refine avg_le_br c p h2 r2 sd t hwf0 (fun pr hpr => hcons pr ?_)
        rw [nodeActionCountsList]
        exact List.mem_append.2 (Or.inl hpr)
      · refine avg_le_br_forest rest p sd t hwfrest (fun pr hpr => hcons pr ?_) c hc h2 r2
        rw [nodeActionCountsList]
        exact List.mem_append.2 (Or.inr hpr)
end

/-- The per-player best-response gain is nonnegative. -/
lemma bestResponseValue_nonneg (tree : TreeNode) (bp : Player) (t : Trainer)
    (sd : ShowdownTable)
    (hwf : wfTree tree)
    (hcons : ∀ pr ∈ nodeActionCounts tree, ∀ (hb : Nat) (d : InfoSetData),
      t ⟨hb, pr.1⟩ = some d → d.numActions = pr.2 ∧
      d.cumulativeStrategy.length = pr.2 ∧ ∀ x ∈ d.cumulativeStrategy, 0 ≤ x) :
    0 ≤ bestResponseValue tree bp t sd := by
  cases bp with
  | OOP =>
      unfold bestResponseValue
      dsimp only
      apply div_nonneg
      · apply List.sum_nonneg
        intro x hx
        rcases List.mem_map.1 hx with ⟨hh, _, rfl⟩
        have hle := avg_le_br tree Player.OOP hh
          (indicatorReach (sd.validIpForOop.getD hh []) sd.ipCombos.length) sd t hwf hcons
        linarith
      · positivity
  | IP =>
      unfold bestResponseValue
      dsimp only
      apply div_nonneg
      · apply List.sum_nonneg
        intro x hx
        rcases List.mem_map.1 hx with ⟨hh, _, rfl⟩
        have hle := avg_le_br tree Player.IP hh
          (indicatorReach (sd.validOopForIp.getD hh []) sd.oopCombos.length) sd t hwf hcons
        linarith
      · positivity

/-- C9: for every well-formed tree and every trainer state whose stored
entries are consistent with the tree (length-matching, nonnegative
strategy accumulators — the only states the source can produce without
panicking), the exploitability is nonnegative: per hand, the
best-response traversal dominates the average-strategy traversal, so both
per-player mean gains and their halved sum are ≥ 0. -/
theorem computeExploitability_nonneg (tree : TreeNode) (t : Trainer)
    (sd : ShowdownTable)
    (hwf : wfTree tree)
    (hcons : ∀ pr ∈ nodeActionCounts tree, ∀ (hb : Nat) (d : InfoSetData),
      t ⟨hb, pr.1⟩ = some d → d.numActions = pr.2 ∧
      d.cumulativeStrategy.length = pr.2 ∧ ∀ x ∈ d.cumulativeStrategy, 0 ≤ x) :
    0 ≤ computeExploitability tree t sd := by
  unfold computeExploitability
  have h1 := bestResponseValue_nonneg tree Player.OOP t sd hwf hcons
  have h2 := bestResponseValue_nonneg tree Player.IP t sd hwf hcons
  linarith

/-- Witness for `computeExploitability_nonneg` on a concrete check-only
tree, a fresh trainer and a one-combo-per-player showdown table. -/
theorem computeExploitability_nonneg_witness :
    0 ≤ computeExploitability
      (TreeNode.action 0 Player.OOP 10 (20, 20) [Action.check]
        [TreeNode.terminal TerminalType.showdown 10 (20, 20) (0, 0)])
      Trainer.new ⟨[(0, 1)], [(2, 3)], [[0]], [[0]], [5], [7]⟩ :=
  computeExploitability_nonneg
    (TreeNode.action 0 Player.OOP 10 (20, 20) [Action.check]
      [TreeNode.terminal TerminalType.showdown 10 (20, 20) (0, 0)])
    Trainer.new ⟨[(0, 1)], [(2, 3)], [[0]], [[0]], [5], [7]⟩
    (by
      refine ⟨by simp, rfl, ?_⟩
      simp [wfForest, wfTree])
    (by
      intro pr hpr hb d hd
      exact Option.noConfusion hd)

/-- C7 counterexample to the claim as frozen: construction with a
negative pot and a negative stack succeeds — pot/stack are not validated
anywhere in the constructor, contrary to the claimed
"pot or stack nonpositive/negative" error case. -/
theorem riverSolverConfigNew_accepts_negative_amounts :
    riverSolverConfigNew [0, 1, 2, 3, 4] ["AA"] ["KK"] (-5) (-3) 10
      = Except.ok ⟨[0, 1, 2, 3, 4], ["AA"], ["KK"], -5, -3, 10,
          [33 / 100, 67 / 100, 1], [1], 3⟩ := by
  rfl

/-- C7 (amended): construction returns an error exactly when the parsed
board does not have exactly five cards or either range string parses to an
empty class list (before any board-blocker filtering); pot and stack are
never validated. -/
theorem riverSolverConfigNew_error_iff (board : List Nat)
    (oopRange ipRange : List String) (startingPot effectiveStack : ℚ)
    (iterations : Nat) :
    (∃ e, riverSolverConfigNew board oopRange ipRange startingPot effectiveStack
        iterations = Except.error e)
      ↔ (board.length ≠ 5 ∨ oopRange = [] ∨ ipRange = []) := by
  unfold riverSolverConfigNew
  by_cases h1 : board.length ≠ 5
  · simp [h1]
  · by_cases h2 : oopRange = []
    · simp [h1, h2]
    · by_cases h3 : ipRange = []
      · simp [h1, h2, h3]
      · simp [h1, h2, h3]

end GtoCli

